import Mathlib

/-!
Verification of the firmacheck ingestion and enrichment pipeline against its
specification.  The definitions below are a shallow embedding of the
TypeScript sources: the VAT (entity key) normalizer, the slug generator, the
multi-pass CSV joiner, the activity-code streaming pass with its batch
updater, the batch upsert writer, and the NBB enrichment handler.
Machine numbers are modeled as Nat/Int/Rat; host-language strings are lists
of characters (ASCII behaviour of the host string functions is modeled; the
sources only rely on ASCII behaviour for the validated data).
-/

namespace Firmacheck

namespace Vat

/-- ASCII whitespace, the regex whitespace class restricted to ASCII
(space, tab, line feed, carriage return, vertical tab, form feed). -/
def jsWhitespace (c : Char) : Bool :=
  c.toNat = 32 || c.toNat = 9 || c.toNat = 10 || c.toNat = 13 ||
  c.toNat = 11 || c.toNat = 12

/-- ASCII digit, the regex digit class. -/
def isDig (c : Char) : Bool := 48 ≤ c.toNat && c.toNat ≤ 57

/-- Uppercasing of one character, modeling the host toUpperCase on the
ASCII range (characters outside a-z are left unchanged). -/
def jsToUpper (c : Char) : Char :=
  if 97 ≤ c.toNat ∧ c.toNat ≤ 122 then Char.ofNat (c.toNat - 32) else c

/-- trim(): drop whitespace from both ends. -/
def trimChars (l : List Char) : List Char :=
  ((l.dropWhile jsWhitespace).reverse.dropWhile jsWhitespace).reverse

/-- Dropping a leading "BE" and at most one whitespace character after it,
as the source's anchored replace of the country prefix does. -/
def stripBE : List Char → List Char
  | b :: e :: rest =>
    if b = 'B' ∧ e = 'E' then
      match rest with
      | c :: r => if jsWhitespace c then r else c :: r
      | [] => []
    else b :: e :: rest
  | l => l

/-- Global removal of whitespace and grouping dots. -/
def stripWsDots (l : List Char) : List Char :=
  l.filter (fun c => !(jsWhitespace c || c = '.'))

/-- The DIGITS_ONLY test: exactly ten ASCII digits, the first one 0 or 1. -/
def digitsOnlyTest (l : List Char) : Bool :=
  l.length = 10 && (l.head? == some '0' || l.head? == some '1') && l.all isDig

/-- The cleaning chain of normalizeVat: trim, uppercase, strip the country
prefix, remove whitespace and dots. -/
def cleanedOf (s : List Char) : List Char :=
  stripWsDots (stripBE ((trimChars s).map jsToUpper))

/-- normalizeVat from the source: the canonical ten digits, or none when the
input is empty or the cleaned residue fails the ten-digit test. -/
def normalizeVat (s : List Char) : Option (List Char) :=
  if s = [] then none
  else if digitsOnlyTest (cleanedOf s) then some (cleanedOf s) else none

/-- parseInt on a string of ASCII digits. -/
def digitsToNat (l : List Char) : Nat :=
  l.foldl (fun a c => 10 * a + (c.toNat - 48)) 0

/-- formatVat from the source: prefix "BE ", then groups of 4, 3 and 3
digits separated by dots. -/
def formatVat (s : List Char) : Option (List Char) :=
  (normalizeVat s).map (fun n =>
    'B' :: 'E' :: ' ' ::
      (n.take 4 ++ '.' :: ((n.drop 4).take 3 ++ '.' :: (n.drop 7).take 3)))

/-- The error component of a validation result (the source reports it as a
message string; the payload of the checksum message is modeled). -/
inductive VatError where
  | invalidFormat : VatError
  | checksumMismatch (expected got : Nat) : VatError
deriving DecidableEq

structure VatValidationResult where
  isValid : Bool
  normalized : Option (List Char)
  formatted : Option (List Char)
  error : Option VatError
deriving DecidableEq

/-- validateVat from the source: format check through normalizeVat, then
the mod-97 checksum recomputed from the first eight digits. -/
def validateVat (s : List Char) : VatValidationResult :=
  match normalizeVat s with
  | none => ⟨false, none, none, some .invalidFormat⟩
  | some n =>
    let base := digitsToNat (n.take 8)
    let checksum := digitsToNat (n.drop 8)
    let expected := 97 - base % 97
    if checksum ≠ expected then
      ⟨false, some n, formatVat n, some (.checksumMismatch expected checksum)⟩
    else
      ⟨true, some n, formatVat n, none⟩

theorem digitsOnlyTest_iff (l : List Char) :
    digitsOnlyTest l = true ↔
      l.length = 10 ∧ (l.head? = some '0' ∨ l.head? = some '1') ∧
        ∀ c ∈ l, isDig c = true := by
  simp [digitsOnlyTest, List.all_eq_true, Bool.and_eq_true, Bool.or_eq_true,
    decide_eq_true_eq, and_assoc]

theorem normalizeVat_eq_some {s n : List Char} (h : normalizeVat s = some n) :
    n = cleanedOf s ∧ digitsOnlyTest (cleanedOf s) = true := by
  unfold normalizeVat at h
  split at h
  · cases h
  · split at h
    · cases h; exact ⟨rfl, by assumption⟩
    · cases h

/-- C3: validation succeeds iff stripping the optional country prefix,
whitespace and grouping dots leaves exactly ten digits whose first digit is
0 or 1 and whose last two digits equal 97 minus (the first eight digits mod
97); when the format test passes but the last two digits disagree with the
recomputed checksum, validation fails with a checksum error reporting the
expected value. -/
theorem validateVat_checksum_spec (s : List Char) :
    ((validateVat s).isValid = true ↔
      ((cleanedOf s).length = 10 ∧
        ((cleanedOf s).head? = some '0' ∨ (cleanedOf s).head? = some '1') ∧
        (∀ c ∈ cleanedOf s, isDig c = true) ∧
        digitsToNat ((cleanedOf s).drop 8) =
          97 - digitsToNat ((cleanedOf s).take 8) % 97))
    ∧ (∀ n, normalizeVat s = some n →
        digitsToNat (n.drop 8) ≠ 97 - digitsToNat (n.take 8) % 97 →
        (validateVat s).isValid = false ∧
        (validateVat s).error =
          some (.checksumMismatch (97 - digitsToNat (n.take 8) % 97)
            (digitsToNat (n.drop 8)))) := by
  constructor
  · by_cases hs : s = []
    · subst hs
      constructor
      · intro h; exact absurd h (by decide)
      · rintro ⟨h10, -⟩
        simp [cleanedOf, trimChars, stripBE, stripWsDots] at h10
    · by_cases hd : digitsOnlyTest (cleanedOf s) = true
      · have hn : normalizeVat s = some (cleanedOf s) := by
          simp [normalizeVat, hs, hd]
        have hconj := (digitsOnlyTest_iff _).1 hd
        unfold validateVat
        rw [hn]
        by_cases hck : digitsToNat ((cleanedOf s).drop 8) =
            97 - digitsToNat ((cleanedOf s).take 8) % 97
        · simp only [hck, ne_eq, not_true_eq_false, if_false, ite_false]
          simpa [hck] using hconj
        · simp only [ne_eq, hck, not_false_eq_true, if_true, ite_true]
          simp [hck]
      · have hn : normalizeVat s = none := by
          simp [normalizeVat, hs, hd]
        unfold validateVat
        rw [hn]
        simp only [Bool.false_eq_true, false_iff, not_and]
        intro h10 hhead hdig
        exact absurd ((digitsOnlyTest_iff _).2 ⟨h10, hhead, hdig⟩) hd
  · intro n hn hck
    obtain ⟨rfl, hd⟩ := normalizeVat_eq_some hn
    unfold validateVat
    rw [hn]
    simp [hck]

/-- Witness for C3 at the concrete input "0123456789": the first eight
digits give 1234567 mod 97 = 48, so the expected checksum is 49, while the
input carries 89. -/
theorem validateVat_checksum_spec_witness :
    (validateVat ("0123456789".data)).isValid = false ∧
    (validateVat ("0123456789".data)).error =
      some (.checksumMismatch 49 89) := by
  have h := (validateVat_checksum_spec ("0123456789".data)).2
    ("0123456789".data) (by decide) (by decide)
  exact ⟨h.1, h.2.trans (by decide)⟩

theorem isDig_toNat {c : Char} (h : isDig c = true) :
    48 ≤ c.toNat ∧ c.toNat ≤ 57 := by
  simpa [isDig, Bool.and_eq_true, decide_eq_true_eq] using h

theorem jsWhitespace_eq_false {c : Char} (h : 32 < c.toNat) :
    jsWhitespace c = false := by
  simp only [jsWhitespace, Bool.or_eq_false_iff, decide_eq_false_iff_not]
  omega

theorem jsToUpper_eq_self {c : Char} (h : c.toNat < 97) : jsToUpper c = c := by
  unfold jsToUpper
  rw [if_neg]
  omega

theorem dropWhile_eq_self_of_head {p : Char → Bool} {l : List Char}
    (h : ∀ c, l.head? = some c → p c = false) : l.dropWhile p = l := by
  cases l with
  | nil => rfl
  | cons a t =>
    rw [List.dropWhile_cons, if_neg]
    simp [h a rfl]

theorem trimChars_eq_self {l : List Char}
    (h1 : ∀ c, l.head? = some c → jsWhitespace c = false)
    (h2 : ∀ c, l.getLast? = some c → jsWhitespace c = false) :
    trimChars l = l := by
  unfold trimChars
  rw [dropWhile_eq_self_of_head h1,
    dropWhile_eq_self_of_head (fun c hc => h2 c (by rwa [List.head?_reverse] at hc)),
    List.reverse_reverse]

theorem map_jsToUpper_eq_self {l : List Char} (h : ∀ c ∈ l, c.toNat < 97) :
    l.map jsToUpper = l := by
  induction l with
  | nil => rfl
  | cons a t ih =>
    rw [List.map_cons, jsToUpper_eq_self (h a (List.mem_cons_self a t)),
      ih fun c hc => h c (List.mem_cons_of_mem a hc)]

theorem stripBE_of_head_ne {l : List Char}
    (h : ∀ c, l.head? = some c → c ≠ 'B') : stripBE l = l := by
  match l with
  | [] => rfl
  | [b] => rfl
  | b :: e :: rest =>
    simp only [stripBE]
    rw [if_neg]
    rintro ⟨rfl, -⟩
    exact h _ rfl rfl

theorem stripWsDots_of_digits {l : List Char} (h : ∀ c ∈ l, isDig c = true) :
    stripWsDots l = l := by
  unfold stripWsDots
  rw [List.filter_eq_self]
  intro c hc
  obtain ⟨h1, h2⟩ := isDig_toNat (h c hc)
  simp only [Bool.not_eq_true', Bool.or_eq_false_iff, decide_eq_false_iff_not]
  refine ⟨jsWhitespace_eq_false (by omega), ?_⟩
  intro he
  subst he
  exact absurd h1 (by decide)

/-- The cleaning chain leaves a pure digit string unchanged. -/
theorem cleanedOf_digits {l : List Char} (hdig : ∀ c ∈ l, isDig c = true) :
    cleanedOf l = l := by
  have hws : ∀ c ∈ l, jsWhitespace c = false := fun c hc =>
    jsWhitespace_eq_false (by have := isDig_toNat (hdig c hc); omega)
  have hB : ∀ c, l.head? = some c → c ≠ 'B' := by
    intro c hc he
    subst he
    have := isDig_toNat (hdig _ (List.mem_of_mem_head? hc))
    revert this
    decide
  unfold cleanedOf
  rw [trimChars_eq_self (fun c hc => hws c (List.mem_of_mem_head? hc))
      (fun c hc => hws c (List.mem_of_mem_getLast? hc)),
    map_jsToUpper_eq_self (fun c hc => by have := isDig_toNat (hdig c hc); omega),
    stripBE_of_head_ne hB, stripWsDots_of_digits hdig]

/-- A nonempty pure digit string normalizes according to the ten-digit
test alone. -/
theorem normalizeVat_digits {l : List Char} (hne : l ≠ [])
    (hdig : ∀ c ∈ l, isDig c = true) :
    normalizeVat l = if digitsOnlyTest l = true then some l else none := by
  unfold normalizeVat
  rw [if_neg hne, cleanedOf_digits hdig]

/-- A canonical ten-digit key normalizes to itself. -/
theorem normalizeVat_canonical {l : List Char} (h10 : l.length = 10)
    (hdig : ∀ c ∈ l, isDig c = true)
    (h01 : l.head? = some '0' ∨ l.head? = some '1') :
    normalizeVat l = some l := by
  have hne : l ≠ [] := by
    intro h
    subst h
    simp at h10
  rw [normalizeVat_digits hne hdig,
    if_pos ((digitsOnlyTest_iff l).2 ⟨h10, h01, hdig⟩)]

/-- The display form of a canonical key: country prefix and grouping dots,
as built by formatVat. -/
def fmtKey (l : List Char) : List Char :=
  'B' :: 'E' :: ' ' ::
    (l.take 4 ++ '.' :: ((l.drop 4).take 3 ++ '.' :: (l.drop 7).take 3))

theorem cleanedOf_fmtKey {l : List Char} (h10 : l.length = 10)
    (hdig : ∀ c ∈ l, isDig c = true) :
    cleanedOf (fmtKey l) = l := by
  have h73 : (l.drop 7).take 3 = l.drop 7 :=
    List.take_of_length_le (by rw [List.length_drop]; omega)
  have hC : l.drop 7 ≠ [] := by
    intro h
    have hlen := List.length_drop 7 l
    rw [h] at hlen
    simp at hlen
    omega
  have hsplit : fmtKey l =
      ('B' :: 'E' :: ' ' :: (l.take 4 ++ '.' :: ((l.drop 4).take 3 ++ ['.']))) ++
        l.drop 7 := by
    simp [fmtKey, h73]
  have hmem : ∀ c ∈ fmtKey l, c = 'B' ∨ c = 'E' ∨ c = ' ' ∨ c = '.' ∨ c ∈ l := by
    intro c hc
    simp only [fmtKey, List.mem_cons, List.mem_append] at hc
    rcases hc with rfl | rfl | rfl | hc | rfl | hc | rfl | hc
    · exact Or.inl rfl
    · exact Or.inr (Or.inl rfl)
    · exact Or.inr (Or.inr (Or.inl rfl))
    · exact Or.inr (Or.inr (Or.inr (Or.inr (List.take_subset _ _ hc))))
    · exact Or.inr (Or.inr (Or.inr (Or.inl rfl)))
    · exact Or.inr (Or.inr (Or.inr (Or.inr
        (List.drop_subset _ _ (List.take_subset _ _ hc)))))
    · exact Or.inr (Or.inr (Or.inr (Or.inl rfl)))
    · exact Or.inr (Or.inr (Or.inr (Or.inr
        (List.drop_subset _ _ (List.take_subset _ _ hc)))))
  have htrim : trimChars (fmtKey l) = fmtKey l := by
    apply trimChars_eq_self
    · intro c hc
      have : c = 'B' := by
        simpa [fmtKey] using hc.symm
      subst this
      decide
    · intro c hc
      rw [hsplit, List.getLast?_append] at hc
      cases hgl : (l.drop 7).getLast? with
      | none => exact absurd (List.getLast?_eq_none_iff.mp hgl) hC
      | some d =>
        rw [hgl] at hc
        simp only [Option.or_some, Option.some.injEq] at hc
        subst hc
        have hd : d ∈ l := List.drop_subset _ _ (List.mem_of_mem_getLast? hgl)
        exact jsWhitespace_eq_false (by have := isDig_toNat (hdig d hd); omega)
  have hupper : (fmtKey l).map jsToUpper = fmtKey l := by
    apply map_jsToUpper_eq_self
    intro c hc
    rcases hmem c hc with rfl | rfl | rfl | rfl | hcl
    · decide
    · decide
    · decide
    · decide
    · have := isDig_toNat (hdig c hcl)
      omega
  have hstrip : stripBE (fmtKey l) =
      l.take 4 ++ '.' :: ((l.drop 4).take 3 ++ '.' :: (l.drop 7).take 3) := by
    simp only [fmtKey, stripBE]
    rw [if_pos (by simp), if_pos (by decide)]
  have hdots : stripWsDots
      (l.take 4 ++ '.' :: ((l.drop 4).take 3 ++ '.' :: (l.drop 7).take 3)) = l := by
    unfold stripWsDots
    rw [List.filter_append, List.filter_cons, List.filter_append, List.filter_cons]
    have hdotpred :
        ((!(jsWhitespace '.' || '.' == '.')) = true) = False := by decide
    rw [if_neg (by simp [hdotpred]), if_neg (by simp [hdotpred])]
    have hseg : ∀ m : List Char, (∀ c ∈ m, isDig c = true) →
        m.filter (fun c => !(jsWhitespace c || c = '.')) = m := fun m hm =>
      stripWsDots_of_digits hm
    rw [hseg _ (fun c hc => hdig c (List.take_subset _ _ hc)),
      hseg _ (fun c hc => hdig c (List.drop_subset _ _ (List.take_subset _ _ hc))),
      hseg _ (fun c hc => hdig c (List.drop_subset _ _ (List.take_subset _ _ hc))),
      h73]
    rw [show l.drop 7 = (l.drop 4).drop 3 from (List.drop_drop 3 4 l).symm,
      List.take_append_drop, List.take_append_drop]
  unfold cleanedOf
  rw [htrim, hupper, hstrip, hdots]

/-- C5: formatting a canonical ten-digit key yields the prefixed,
dot-grouped display string, and normalizing that display string returns the
original canonical digits; when the key also satisfies the mod-97 checksum,
the normalize, validate, format chain completes without error. -/
theorem format_normalize_roundtrip (l : List Char) (h10 : l.length = 10)
    (hdig : ∀ c ∈ l, isDig c = true)
    (h01 : l.head? = some '0' ∨ l.head? = some '1') :
    formatVat l = some (fmtKey l) ∧
    normalizeVat (fmtKey l) = some l ∧
    (digitsToNat (l.drop 8) = 97 - digitsToNat (l.take 8) % 97 →
      normalizeVat l = some l ∧
      (validateVat l).isValid = true ∧
      (validateVat l).error = none ∧
      (validateVat l).formatted = some (fmtKey l)) := by
  have hnorm : normalizeVat l = some l := normalizeVat_canonical h10 hdig h01
  have hfmt : formatVat l = some (fmtKey l) := by
    unfold formatVat
    rw [hnorm]
    rfl
  refine ⟨hfmt, ?_, ?_⟩
  · have hne : fmtKey l ≠ [] := by simp [fmtKey]
    unfold normalizeVat
    rw [if_neg hne, cleanedOf_fmtKey h10 hdig,
      if_pos ((digitsOnlyTest_iff l).2 ⟨h10, h01, hdig⟩)]
  · intro hck
    refine ⟨hnorm, ?_, ?_, ?_⟩ <;>
      · unfold validateVat
        rw [hnorm]
        simp [hck, hfmt]

/-- Witness for C5 at the concrete canonical key "0417497106" (which also
satisfies the checksum: 4174971 mod 97 = 91, 97 - 91 = 6). -/
theorem format_normalize_roundtrip_witness :
    formatVat ("0417497106".data) = some ("BE 0417.497.106".data) ∧
    normalizeVat ("BE 0417.497.106".data) = some ("0417497106".data) ∧
    (validateVat ("0417497106".data)).isValid = true := by
  have h := format_normalize_roundtrip ("0417497106".data) (by decide)
    (by decide) (by decide)
  obtain ⟨h1, h2, h3⟩ := h
  obtain ⟨-, h4, -, -⟩ := h3 (by decide)
  refine ⟨h1.trans (by decide), ?_, h4⟩
  have : fmtKey ("0417497106".data) = "BE 0417.497.106".data := by decide
  rw [this] at h2
  exact h2

theorem char_eq_of_toNat_eq {c d : Char} (h : c.toNat = d.toNat) : c = d :=
  Char.ext (UInt32.ext h)

theorem digitsToNat_go (acc : ℕ) (l : List Char) :
    l.foldl (fun a c => 10 * a + (c.toNat - 48)) acc =
      acc * 10 ^ l.length + digitsToNat l := by
  induction l generalizing acc with
  | nil => simp [digitsToNat]
  | cons a t ih =>
    rw [List.foldl_cons, ih]
    have h2 : digitsToNat (a :: t) = (a.toNat - 48) * 10 ^ t.length + digitsToNat t := by
      unfold digitsToNat
      rw [List.foldl_cons, ih]
      ring_nf
      rfl
    rw [h2]
    simp [List.length_cons]
    ring

theorem digitsToNat_cons (a : Char) (t : List Char) :
    digitsToNat (a :: t) = (a.toNat - 48) * 10 ^ t.length + digitsToNat t := by
  unfold digitsToNat
  rw [List.foldl_cons, digitsToNat_go]
  ring_nf
  rfl

theorem digitsToNat_append (a b : List Char) :
    digitsToNat (a ++ b) = digitsToNat a * 10 ^ b.length + digitsToNat b := by
  unfold digitsToNat
  rw [List.foldl_append, digitsToNat_go]
  rfl

/-- Changing a digit column of an eight-digit base by a nonzero amount of
absolute value at most nine changes the value mod 97. -/
theorem mod97_ne_of_digit_step (x y k : ℕ) (δ : ℤ) (hδ : δ ≠ 0)
    (hδ9 : δ.natAbs ≤ 9) (h : (x : ℤ) - y = δ * 10 ^ k) :
    x % 97 ≠ y % 97 := by
  have h10 : (10 : ZMod 97) ≠ 0 := by decide
  haveI : Fact (Nat.Prime 97) := ⟨by norm_num⟩
  intro heq
  have hmod : (x : ZMod 97) = y :=
    (ZMod.natCast_eq_natCast_iff x y 97).2 heq
  have hcast : ((x : ℤ) : ZMod 97) - ((y : ℤ) : ZMod 97) =
      (δ : ZMod 97) * (10 : ZMod 97) ^ k := by
    have := congrArg (fun z : ℤ => (z : ZMod 97)) h
    push_cast at this
    push_cast
    exact this
  rw [show ((x : ℤ) : ZMod 97) = (x : ZMod 97) by push_cast; rfl,
    show ((y : ℤ) : ZMod 97) = (y : ZMod 97) by push_cast; rfl, hmod,
    sub_self] at hcast
  have hzero : (δ : ZMod 97) = 0 ∨ ((10 : ZMod 97) ^ k) = 0 :=
    mul_eq_zero.mp hcast.symm
  rcases hzero with hz | hz
  · have hdvd : (97 : ℤ) ∣ δ := (ZMod.intCast_zmod_eq_zero_iff_dvd δ 97).1 hz
    have h97 : (97 : ℕ) ∣ δ.natAbs := by
      have := Int.natAbs_dvd_natAbs.2 hdvd
      simpa using this
    have hpos : 0 < δ.natAbs := Int.natAbs_pos.2 hδ
    have := Nat.le_of_dvd hpos h97
    omega
  · exact pow_ne_zero k h10 hz

/-- Core of the mutation argument: replacing the digit after `pre` by a
different digit breaks the checksum equation. -/
theorem mutation_checksum_breaks (pre suf : List Char) (c d : Char)
    (hi : pre.length + suf.length = 9)
    (hc : isDig c = true) (hd : isDig d = true) (hne : d ≠ c)
    (hck : digitsToNat ((pre ++ c :: suf).drop 8) =
      97 - digitsToNat ((pre ++ c :: suf).take 8) % 97) :
    digitsToNat ((pre ++ d :: suf).drop 8) ≠
      97 - digitsToNat ((pre ++ d :: suf).take 8) % 97 := by
  have hc48 := isDig_toNat hc
  have hd48 := isDig_toNat hd
  have hδne : (d.toNat : ℤ) - c.toNat ≠ 0 := by
    intro h0
    exact hne (char_eq_of_toNat_eq (by omega))
  by_cases h7 : pre.length ≤ 7
  · -- the mutated digit is part of the eight-digit base
    have h8 : 8 - pre.length = (7 - pre.length) + 1 := by omega
    have htakeL : (pre ++ c :: suf).take 8 = pre ++ c :: suf.take (7 - pre.length) := by
      rw [List.take_append_eq_append_take, List.take_of_length_le (by omega), h8,
        List.take_succ_cons]
    have htakeM : (pre ++ d :: suf).take 8 = pre ++ d :: suf.take (7 - pre.length) := by
      rw [List.take_append_eq_append_take, List.take_of_length_le (by omega), h8,
        List.take_succ_cons]
    have hdropL : (pre ++ c :: suf).drop 8 = suf.drop (7 - pre.length) := by
      rw [List.drop_append_eq_append_drop, List.drop_eq_nil_of_le (by omega), h8,
        List.drop_succ_cons, List.nil_append]
    have hdropM : (pre ++ d :: suf).drop 8 = suf.drop (7 - pre.length) := by
      rw [List.drop_append_eq_append_drop, List.drop_eq_nil_of_le (by omega), h8,
        List.drop_succ_cons, List.nil_append]
    have hT : (suf.take (7 - pre.length)).length = 7 - pre.length := by
      rw [List.length_take]
      omega
    have hdiff : (digitsToNat ((pre ++ d :: suf).take 8) : ℤ) -
        digitsToNat ((pre ++ c :: suf).take 8) =
        ((d.toNat : ℤ) - c.toNat) * 10 ^ (7 - pre.length) := by
      rw [htakeM, htakeL, digitsToNat_append, digitsToNat_append,
        digitsToNat_cons, digitsToNat_cons, hT]
      push_cast [Nat.cast_sub hc48.1, Nat.cast_sub hd48.1]
      simp only [List.length_cons]
      ring
    have hbase : digitsToNat ((pre ++ d :: suf).take 8) % 97 ≠
        digitsToNat ((pre ++ c :: suf).take 8) % 97 :=
      mod97_ne_of_digit_step _ _ (7 - pre.length) _ hδne (by omega) hdiff
    rw [hdropM]
    rw [hdropL] at hck
    intro heq
    apply hbase
    have haL : digitsToNat ((pre ++ c :: suf).take 8) % 97 < 97 :=
      Nat.mod_lt _ (by norm_num)
    have haM : digitsToNat ((pre ++ d :: suf).take 8) % 97 < 97 :=
      Nat.mod_lt _ (by norm_num)
    omega
  · -- the mutated digit is part of the two-digit checksum
    have h80 : 8 - pre.length = 0 := by omega
    have htake : (pre ++ d :: suf).take 8 = (pre ++ c :: suf).take 8 := by
      rw [List.take_append_eq_append_take, List.take_append_eq_append_take, h80,
        List.take_zero, List.take_zero]
    have hdropL : (pre ++ c :: suf).drop 8 = pre.drop 8 ++ c :: suf := by
      rw [List.drop_append_eq_append_drop, h80, List.drop_zero]
    have hdropM : (pre ++ d :: suf).drop 8 = pre.drop 8 ++ d :: suf := by
      rw [List.drop_append_eq_append_drop, h80, List.drop_zero]
    have hdiff : (digitsToNat ((pre ++ d :: suf).drop 8) : ℤ) -
        digitsToNat ((pre ++ c :: suf).drop 8) =
        ((d.toNat : ℤ) - c.toNat) * 10 ^ suf.length := by
      rw [hdropM, hdropL, digitsToNat_append, digitsToNat_append,
        digitsToNat_cons, digitsToNat_cons]
      push_cast [Nat.cast_sub hc48.1, Nat.cast_sub hd48.1]
      simp only [List.length_cons]
      ring
    have hcks : digitsToNat ((pre ++ d :: suf).drop 8) ≠
        digitsToNat ((pre ++ c :: suf).drop 8) := by
      intro heq
      rw [heq, sub_self] at hdiff
      exact mul_ne_zero hδne (pow_ne_zero suf.length (by norm_num : (10:ℤ) ≠ 0))
        hdiff.symm
    rw [htake]
    rw [hck] at hcks
    exact hcks

/-- C4: every single-digit mutation of a valid ten-digit key is rejected,
either by the format test (first digit no longer 0 or 1) or by the mod-97
checksum recomputation. -/
theorem validateVat_single_mutation (pre suf : List Char) (c d : Char)
    (h10 : (pre ++ c :: suf).length = 10)
    (hdig : ∀ x ∈ pre ++ c :: suf, isDig x = true)
    (h01 : (pre ++ c :: suf).head? = some '0' ∨
      (pre ++ c :: suf).head? = some '1')
    (hck : digitsToNat ((pre ++ c :: suf).drop 8) =
      97 - digitsToNat ((pre ++ c :: suf).take 8) % 97)
    (hd : isDig d = true) (hne : d ≠ c) :
    (validateVat (pre ++ d :: suf)).isValid = false := by
  have hi : pre.length + suf.length = 9 := by
    rw [List.length_append, List.length_cons] at h10
    omega
  have hc : isDig c = true :=
    hdig c (List.mem_append.2 (Or.inr (List.mem_cons_self c suf)))
  have hdigM : ∀ x ∈ pre ++ d :: suf, isDig x = true := by
    intro x hx
    rcases List.mem_append.1 hx with h | h
    · exact hdig x (List.mem_append.2 (Or.inl h))
    · rcases List.mem_cons.1 h with rfl | h
      · exact hd
      · exact hdig x (List.mem_append.2 (Or.inr (List.mem_cons_of_mem c h)))
  have h10M : (pre ++ d :: suf).length = 10 := by
    rw [List.length_append, List.length_cons]
    omega
  have hMck := mutation_checksum_breaks pre suf c d hi hc hd hne hck
  by_cases hM01 : (pre ++ d :: suf).head? = some '0' ∨
      (pre ++ d :: suf).head? = some '1'
  · -- the mutated string still has a canonical format: the checksum fails
    have hMnorm : normalizeVat (pre ++ d :: suf) = some (pre ++ d :: suf) :=
      normalizeVat_canonical h10M hdigM hM01
    exact ((validateVat_checksum_spec (pre ++ d :: suf)).2 _ hMnorm hMck).1
  · -- the first digit was mutated away from 0/1: the format test fails
    have hMnone : normalizeVat (pre ++ d :: suf) = none := by
      rw [normalizeVat_digits (by simp) hdigM, if_neg]
      intro ht
      obtain ⟨-, h0, -⟩ := (digitsOnlyTest_iff _).1 ht
      exact hM01 h0
    unfold validateVat
    rw [hMnone]

/-- Witness for C4: mutating the last digit of the valid key "0417497106"
to 7 yields "0417497107", which validation rejects. -/
theorem validateVat_single_mutation_witness :
    (validateVat ("0417497107".data)).isValid = false := by
  have h := validateVat_single_mutation ("041749710".data) [] '6' '7'
    (by decide) (by decide) (by decide) (by decide) (by decide) (by decide)
  simpa using h

end Vat

namespace Slug

/-- The CHAR_MAP table from the slugify source: transliterations for
accented characters, ligatures, the Dutch digraph and the two symbol
expansions. -/
def charMap : Char → Option (List Char)
  | 'à' => some ['a']
  | 'â' => some ['a']
  | 'ä' => some ['a']
  | 'é' => some ['e']
  | 'è' => some ['e']
  | 'ê' => some ['e']
  | 'ë' => some ['e']
  | 'î' => some ['i']
  | 'ï' => some ['i']
  | 'ô' => some ['o']
  | 'ö' => some ['o']
  | 'ù' => some ['u']
  | 'û' => some ['u']
  | 'ü' => some ['u']
  | 'ÿ' => some ['y']
  | 'ç' => some ['c']
  | 'œ' => some ['o', 'e']
  | 'æ' => some ['a', 'e']
  | 'ĳ' => some ['i', 'j']
  | 'ß' => some ['s', 's']
  | '&' => some ['a', 'n', 'd']
  | '@' => some ['a', 't']
  | 'À' => some ['a']
  | 'Â' => some ['a']
  | 'Ä' => some ['a']
  | 'É' => some ['e']
  | 'È' => some ['e']
  | 'Ê' => some ['e']
  | 'Ë' => some ['e']
  | 'Î' => some ['i']
  | 'Ï' => some ['i']
  | 'Ô' => some ['o']
  | 'Ö' => some ['o']
  | 'Ù' => some ['u']
  | 'Û' => some ['u']
  | 'Ü' => some ['u']
  | 'Ÿ' => some ['y']
  | 'Ç' => some ['c']
  | 'Œ' => some ['o', 'e']
  | 'Æ' => some ['a', 'e']
  | 'Ĳ' => some ['i', 'j']
  | _ => none

/-- split-map-join over the character map (unmapped characters kept). -/
def mapChars (l : List Char) : List Char :=
  (l.map (fun c => (charMap c).getD [c])).flatten

/-- Global replacement of the capital digraph "IJ" by "ij" (left to right,
non-overlapping). -/
def replaceIJcap : List Char → List Char
  | 'I' :: 'J' :: rest => 'i' :: 'j' :: replaceIJcap rest
  | a :: rest => a :: replaceIJcap rest
  | [] => []

/-- Global replacement of the mixed digraph "Ij" by "ij". -/
def replaceIJmixed : List Char → List Char
  | 'I' :: 'j' :: rest => 'i' :: 'j' :: replaceIJmixed rest
  | a :: rest => a :: replaceIJmixed rest
  | [] => []

/-- Lowercasing of one character, modeling the host toLowerCase on the
ASCII range (characters outside A-Z are left unchanged). -/
def jsToLower (c : Char) : Char :=
  if 65 ≤ c.toNat ∧ c.toNat ≤ 90 then Char.ofNat (c.toNat + 32) else c

/-- The apostrophe-like characters replaced by the separator: apostrophe
(39), backtick (96) and acute accent (180). -/
def apostChar (c : Char) : Bool :=
  c.toNat = 39 || c.toNat = 96 || c.toNat = 180

/-- Replace each apostrophe-like character by the separator. -/
def replaceApost (l : List Char) : List Char :=
  l.map (fun c => if apostChar c then '-' else c)

/-- The regex class of characters kept by the non-alphanumeric collapse. -/
def isAlnum (c : Char) : Bool :=
  (97 ≤ c.toNat && c.toNat ≤ 122) || (65 ≤ c.toNat && c.toNat ≤ 90) ||
  (48 ≤ c.toNat && c.toNat ≤ 57)

/-- Global replacement of each maximal run of non-alphanumeric characters
by one separator.  The flag records whether the previous character was part
of such a run (whose separator has already been emitted). -/
def collapseGo : Bool → List Char → List Char
  | _, [] => []
  | true, a :: rest =>
    if isAlnum a then a :: collapseGo false rest else collapseGo true rest
  | false, a :: rest =>
    if isAlnum a then a :: collapseGo false rest else '-' :: collapseGo true rest

def collapseNonAlnum (l : List Char) : List Char := collapseGo false l

/-- Removal of leading and trailing separator runs. -/
def stripSeps (l : List Char) : List Char :=
  ((l.dropWhile (fun c => c = '-')).reverse.dropWhile (fun c => c = '-')).reverse

/-- Global replacement of each maximal separator run by one separator. -/
def collapseSepsGo : Bool → List Char → List Char
  | _, [] => []
  | true, a :: rest =>
    if a = '-' then collapseSepsGo true rest
    else a :: collapseSepsGo false rest
  | false, a :: rest =>
    if a = '-' then '-' :: collapseSepsGo true rest
    else a :: collapseSepsGo false rest

def collapseSeps (l : List Char) : List Char := collapseSepsGo false l

/-- Index of the last separator, as lastIndexOf does (none for the host's
minus one). -/
def lastIdxOfSep : List Char → Option Nat
  | [] => none
  | a :: rest =>
    match lastIdxOfSep rest with
    | some i => some (i + 1)
    | none => if a = '-' then some 0 else none

/-- Truncation to the maximum length (default 100) with the word-boundary
cut when the last separator of the sliced prefix sits past 0.7 times the
maximum length. -/
def truncateSlug (l : List Char) : List Char :=
  if 100 < l.length then
    match lastIdxOfSep (l.take 100) with
    | some i => if 70 < i then (l.take 100).take i else l.take 100
    | none => l.take 100
  else l

/-- slugify from the source with its default options inlined (maxLength
100, separator "-", preserveCase false, empty custom map): trim, apply the
character map, normalize the IJ digraph, lowercase, replace apostrophes,
collapse non-alphanumeric runs, strip edge separators, collapse separator
runs, truncate. -/
def slugify (input : List Char) : List Char :=
  if input = [] then []
  else
    truncateSlug (collapseSeps (stripSeps (collapseNonAlnum (replaceApost
      ((replaceIJmixed (replaceIJcap (mapChars (Vat.trimChars input)))).map
        jsToLower)))))

/-- slugifyCompanyName with default options: removeSuffix is false, so the
name goes to slugify unchanged. -/
def slugifyCompanyName (name : List Char) : List Char := slugify name

theorem toNat_ofNat_small {n : Nat} (h : n < 55296) : (Char.ofNat n).toNat = n := by
  unfold Char.ofNat
  rw [dif_pos (Or.inl h : Nat.isValidChar n)]
  rfl

/-- Lowercased characters are never uppercase ASCII letters. -/
theorem jsToLower_not_upper (c : Char) :
    ¬(65 ≤ (jsToLower c).toNat ∧ (jsToLower c).toNat ≤ 90) := by
  unfold jsToLower
  split <;> rename_i h
  · rw [toNat_ofNat_small (by omega)]
    omega
  · omega

/-- Characters of the collapsed list are kept alphanumeric characters of
the input or the separator. -/
theorem collapseGo_mem {l : List Char} : ∀ (f : Bool),
    ∀ c ∈ collapseGo f l, (c ∈ l ∧ isAlnum c = true) ∨ c = '-' := by
  induction l with
  | nil =>
    intro f c hc
    cases f <;> simp [collapseGo] at hc
  | cons a rest ih =>
    intro f c hc
    have hstep : ∀ d, d ∈ collapseGo false rest ∨ d ∈ collapseGo true rest →
        (d ∈ a :: rest ∧ isAlnum d = true) ∨ d = '-' := by
      intro d hd
      have : (d ∈ rest ∧ isAlnum d = true) ∨ d = '-' := by
        rcases hd with hd | hd
        · exact ih false d hd
        · exact ih true d hd
      rcases this with ⟨h1, h2⟩ | h
      · exact Or.inl ⟨List.mem_cons_of_mem _ h1, h2⟩
      · exact Or.inr h
    cases f with
    | true =>
      simp only [collapseGo] at hc
      by_cases ha : isAlnum a = true
      · rw [if_pos ha] at hc
        rcases List.mem_cons.1 hc with rfl | hc
        · exact Or.inl ⟨List.mem_cons_self _ _, ha⟩
        · exact hstep c (Or.inl hc)
      · rw [if_neg ha] at hc
        exact hstep c (Or.inr hc)
    | false =>
      simp only [collapseGo] at hc
      by_cases ha : isAlnum a = true
      · rw [if_pos ha] at hc
        rcases List.mem_cons.1 hc with rfl | hc
        · exact Or.inl ⟨List.mem_cons_self _ _, ha⟩
        · exact hstep c (Or.inl hc)
      · rw [if_neg ha] at hc
        rcases List.mem_cons.1 hc with rfl | hc
        · exact Or.inr rfl
        · exact hstep c (Or.inr hc)

theorem collapseSepsGo_mem {l : List Char} : ∀ (f : Bool),
    ∀ c ∈ collapseSepsGo f l, c ∈ l ∨ c = '-' := by
  induction l with
  | nil =>
    intro f c hc
    cases f <;> simp [collapseSepsGo] at hc
  | cons a rest ih =>
    intro f c hc
    have hstep : ∀ d, d ∈ collapseSepsGo false rest ∨ d ∈ collapseSepsGo true rest →
        d ∈ a :: rest ∨ d = '-' := by
      intro d hd
      have : d ∈ rest ∨ d = '-' := by
        rcases hd with hd | hd
        · exact ih false d hd
        · exact ih true d hd
      rcases this with h | h
      · exact Or.inl (List.mem_cons_of_mem _ h)
      · exact Or.inr h
    cases f with
    | true =>
      simp only [collapseSepsGo] at hc
      by_cases ha : a = '-'
      · rw [if_pos ha] at hc
        exact hstep c (Or.inr hc)
      · rw [if_neg ha] at hc
        rcases List.mem_cons.1 hc with rfl | hc
        · exact Or.inl (List.mem_cons_self _ _)
        · exact hstep c (Or.inl hc)
    | false =>
      simp only [collapseSepsGo] at hc
      by_cases ha : a = '-'
      · rw [if_pos ha] at hc
        rcases List.mem_cons.1 hc with rfl | hc
        · exact Or.inr rfl
        · exact hstep c (Or.inr hc)
      · rw [if_neg ha] at hc
        rcases List.mem_cons.1 hc with rfl | hc
        · exact Or.inl (List.mem_cons_self _ _)
        · exact hstep c (Or.inl hc)

/-- Inside a separator run the next emitted character is never a
separator. -/
theorem collapseSepsGo_head_true {l : List Char} :
    ∀ c, (collapseSepsGo true l).head? = some c → c ≠ '-' := by
  induction l with
  | nil =>
    intro c hc
    simp [collapseSepsGo] at hc
  | cons a rest ih =>
    intro c hc
    simp only [collapseSepsGo] at hc
    by_cases ha : a = '-'
    · rw [if_pos ha] at hc
      exact ih c hc
    · rw [if_neg ha, List.head?_cons] at hc
      cases hc
      exact ha

/-- After the separator collapse there are no two adjacent separators. -/
theorem collapseSepsGo_pair_free {l : List Char} : ∀ (f : Bool),
    ¬(['-', '-'] <:+: collapseSepsGo f l) := by
  induction l with
  | nil =>
    intro f
    cases f <;> simp [collapseSepsGo]
  | cons a rest ih =>
    intro f
    by_cases ha : a = '-'
    · cases f with
      | true =>
        simp only [collapseSepsGo, if_pos ha]
        exact ih true
      | false =>
        simp only [collapseSepsGo, if_pos ha]
        intro hinf
        rcases List.infix_cons_iff.1 hinf with hpre | hinf2
        · have h2 : ['-'] <+: collapseSepsGo true rest :=
            (List.cons_prefix_cons.1 hpre).2
          cases hh : collapseSepsGo true rest with
          | nil =>
            rw [hh] at h2
            rcases h2 with ⟨t, ht⟩
            cases ht
          | cons x xs =>
            rw [hh] at h2
            have hx := (List.cons_prefix_cons.1 h2).1
            exact collapseSepsGo_head_true x (by rw [hh]; rfl) hx.symm
        · exact ih true hinf2
    · cases f with
      | true =>
        simp only [collapseSepsGo, if_neg ha]
        intro hinf
        rcases List.infix_cons_iff.1 hinf with hpre | hinf2
        · exact ha ((List.cons_prefix_cons.1 hpre).1).symm
        · exact ih false hinf2
      | false =>
        simp only [collapseSepsGo, if_neg ha]
        intro hinf
        rcases List.infix_cons_iff.1 hinf with hpre | hinf2
        · exact ha ((List.cons_prefix_cons.1 hpre).1).symm
        · exact ih false hinf2

theorem getLast?_cons_ne_nil {α : Type} {a : α} {t : List α} (h : t ≠ []) :
    (a :: t).getLast? = t.getLast? := by
  cases t with
  | nil => exact absurd rfl h
  | cons b t2 => exact List.getLast?_cons_cons

/-- A nonempty list without a trailing separator keeps a nonempty output
without a trailing separator through the separator collapse. -/
theorem collapseSepsGo_last {l : List Char} : ∀ (f : Bool), l ≠ [] →
    (∀ c, l.getLast? = some c → c ≠ '-') →
    collapseSepsGo f l ≠ [] ∧
    (∀ c, (collapseSepsGo f l).getLast? = some c → c ≠ '-') := by
  induction l with
  | nil =>
    intro f h
    exact absurd rfl h
  | cons a rest ih =>
    intro f hne hlast
    by_cases hrne : rest = []
    · subst hrne
      have ha : a ≠ '-' := hlast a rfl
      cases f with
      | true =>
        simp only [collapseSepsGo, if_neg ha]
        exact ⟨by simp, by
          intro c hc
          simp only [collapseSepsGo, List.getLast?_singleton] at hc
          cases hc
          exact ha⟩
      | false =>
        simp only [collapseSepsGo, if_neg ha]
        exact ⟨by simp, by
          intro c hc
          simp only [collapseSepsGo, List.getLast?_singleton] at hc
          cases hc
          exact ha⟩
    · have hlast2 : ∀ c, rest.getLast? = some c → c ≠ '-' := fun c hc =>
        hlast c (by rw [getLast?_cons_ne_nil hrne]; exact hc)
      by_cases ha : a = '-'
      · cases f with
        | true =>
          simp only [collapseSepsGo, if_pos ha]
          exact ih true hrne hlast2
        | false =>
          simp only [collapseSepsGo, if_pos ha]
          obtain ⟨hne2, hl2⟩ := ih true hrne hlast2
          refine ⟨by simp, ?_⟩
          intro c hc
          rw [getLast?_cons_ne_nil hne2] at hc
          exact hl2 c hc
      · obtain ⟨hne2, hl2⟩ := ih false hrne hlast2
        cases f with
        | true =>
          simp only [collapseSepsGo, if_neg ha]
          refine ⟨by simp, ?_⟩
          intro c hc
          rw [getLast?_cons_ne_nil hne2] at hc
          exact hl2 c hc
        | false =>
          simp only [collapseSepsGo, if_neg ha]
          refine ⟨by simp, ?_⟩
          intro c hc
          rw [getLast?_cons_ne_nil hne2] at hc
          exact hl2 c hc

theorem dropWhile_head_not {p : Char → Bool} {l : List Char} :
    ∀ c, (l.dropWhile p).head? = some c → p c = false := by
  induction l with
  | nil =>
    intro c hc
    cases hc
  | cons a rest ih =>
    intro c hc
    rw [List.dropWhile_cons] at hc
    by_cases ha : p a = true
    · rw [if_pos ha] at hc
      exact ih c hc
    · rw [if_neg ha, List.head?_cons] at hc
      cases hc
      simpa using ha

theorem suffix_getLast? {l₁ l₂ : List Char} (h : l₂ <:+ l₁) (hne : l₂ ≠ []) :
    l₂.getLast? = l₁.getLast? := by
  obtain ⟨t, rfl⟩ := h
  rw [List.getLast?_append]
  cases h2 : l₂.getLast? with
  | none => exact absurd (List.getLast?_eq_none_iff.1 h2) hne
  | some x => rfl

/-- Stripped lists do not start with a separator. -/
theorem stripSeps_head {l : List Char} :
    ∀ c, (stripSeps l).head? = some c → c ≠ '-' := by
  intro c hc
  unfold stripSeps at hc
  rw [List.head?_reverse] at hc
  have hne : (((l.dropWhile (fun c => c = '-')).reverse).dropWhile
      (fun c => c = '-')) ≠ [] := by
    intro h0
    rw [h0] at hc
    cases hc
  have hsuf := List.dropWhile_suffix (l := (l.dropWhile (fun c => c = '-')).reverse)
    (fun c => c = '-')
  rw [suffix_getLast? hsuf hne, List.getLast?_reverse] at hc
  have := dropWhile_head_not c hc
  simpa using this

/-- Stripped lists do not end with a separator. -/
theorem stripSeps_last {l : List Char} :
    ∀ c, (stripSeps l).getLast? = some c → c ≠ '-' := by
  intro c hc
  unfold stripSeps at hc
  rw [List.getLast?_reverse] at hc
  have := dropWhile_head_not c hc
  simpa using this

theorem stripSeps_subset {l : List Char} : ∀ c ∈ stripSeps l, c ∈ l := by
  intro c hc
  unfold stripSeps at hc
  rw [List.mem_reverse] at hc
  have h1 := (List.dropWhile_suffix (fun c => c = '-')).subset hc
  rw [List.mem_reverse] at h1
  exact (List.dropWhile_suffix (fun c => c = '-')).subset h1

theorem lastIdxOfSep_spec_get {l : List Char} :
    ∀ i, lastIdxOfSep l = some i → l[i]? = some '-' := by
  induction l with
  | nil =>
    intro i hi
    cases hi
  | cons a rest ih =>
    intro i hi
    simp only [lastIdxOfSep] at hi
    cases hr : lastIdxOfSep rest with
    | some j =>
      rw [hr] at hi
      cases hi
      rw [List.getElem?_cons_succ]
      exact ih j hr
    | none =>
      rw [hr] at hi
      by_cases ha : a = '-'
      · rw [if_pos ha] at hi
        cases hi
        rw [List.getElem?_cons_zero, ha]
      · rw [if_neg ha] at hi
        cases hi

theorem lastIdxOfSep_ne_none {l : List Char} (h : '-' ∈ l) :
    lastIdxOfSep l ≠ none := by
  induction l with
  | nil => cases h
  | cons a rest ih =>
    simp only [lastIdxOfSep]
    cases h2 : lastIdxOfSep rest with
    | some x => simp
    | none =>
      rcases List.mem_cons.1 h with rfl | hm
      · simp
      · exact absurd h2 (ih hm)

theorem lastIdxOfSep_none {l : List Char} (h : lastIdxOfSep l = none) :
    '-' ∉ l := fun hm => lastIdxOfSep_ne_none hm h

theorem lastIdxOfSep_spec_upper {l : List Char} :
    ∀ i, lastIdxOfSep l = some i → ∀ j, i < j → l[j]? ≠ some '-' := by
  induction l with
  | nil =>
    intro i hi
    cases hi
  | cons a rest ih =>
    intro i hi j hj
    simp only [lastIdxOfSep] at hi
    cases hr : lastIdxOfSep rest with
    | some k =>
      rw [hr] at hi
      cases hi
      cases j with
      | zero => omega
      | succ j2 =>
        rw [List.getElem?_cons_succ]
        exact ih k hr j2 (by omega)
    | none =>
      rw [hr] at hi
      by_cases ha : a = '-'
      · rw [if_pos ha] at hi
        cases hi
        cases j with
        | zero => omega
        | succ j2 =>
          rw [List.getElem?_cons_succ]
          intro hbad
          exact lastIdxOfSep_none hr (List.getElem?_mem hbad)
      · rw [if_neg ha] at hi
        cases hi

theorem pair_infix_of_get {l : List Char} :
    ∀ j, l[j]? = some '-' → l[j + 1]? = some '-' → ['-', '-'] <:+: l := by
  induction l with
  | nil =>
    intro j h1
    cases h1
  | cons a rest ih =>
    intro j h1 h2
    cases j with
    | zero =>
      rw [List.getElem?_cons_zero] at h1
      cases h1
      rw [List.getElem?_cons_succ] at h2
      cases rest with
      | nil => cases h2
      | cons b rest2 =>
        rw [List.getElem?_cons_zero] at h2
        cases h2
        exact (List.cons_prefix_cons.2 ⟨rfl,
          List.cons_prefix_cons.2 ⟨rfl, List.nil_prefix⟩⟩).isInfix
    | succ j2 =>
      rw [List.getElem?_cons_succ] at h1 h2
      exact List.infix_cons_iff.2 (Or.inr (ih j2 h1 h2))

theorem head?_take {l : List Char} {n : Nat} (h : 0 < n) :
    (l.take n).head? = l.head? := by
  cases l with
  | nil => simp
  | cons a t =>
    cases n with
    | zero => omega
    | succ m => rw [List.take_succ_cons, List.head?_cons, List.head?_cons]

theorem truncateSlug_isPrefixOfInput (w : List Char) : truncateSlug w <+: w := by
  unfold truncateSlug
  split
  · split
    · split
      · exact (List.take_prefix _ _).trans (List.take_prefix _ _)
      · exact List.take_prefix _ _
    · exact List.take_prefix _ _
  · exact List.prefix_refl w

theorem truncateSlug_length (w : List Char) : (truncateSlug w).length ≤ 100 := by
  unfold truncateSlug
  split <;> rename_i h
  · have h1 : (w.take 100).length = 100 := by
      rw [List.length_take]
      omega
    split
    · split
      · rw [List.length_take, h1]
        omega
      · omega
    · omega
  · omega

theorem truncateSlug_head {w : List Char}
    (hhead : ∀ c, w.head? = some c → c ≠ '-') :
    ∀ c, (truncateSlug w).head? = some c → c ≠ '-' := by
  intro c hc
  unfold truncateSlug at hc
  split at hc
  · split at hc
    · split at hc <;> rename_i h70
      · rw [head?_take (by omega), head?_take (by omega)] at hc
        exact hhead c hc
      · rw [head?_take (by omega)] at hc
        exact hhead c hc
    · rw [head?_take (by omega)] at hc
      exact hhead c hc
  · exact hhead c hc

theorem truncateSlug_last {w : List Char} (hpf : ¬(['-', '-'] <:+: w))
    (hlast : ∀ c, w.getLast? = some c → c ≠ '-') :
    ∀ c, (truncateSlug w).getLast? = some c → c ≠ '-' := by
  intro c hc
  unfold truncateSlug at hc
  split at hc
  · split at hc
    · rename_i i heq
      split at hc <;> rename_i h70
      · have hg := lastIdxOfSep_spec_get i heq
        have hilen : i < (w.take 100).length := by
          by_contra hge
          have hge2 : (w.take 100).length ≤ i := by omega
          rw [List.getElem?_eq_none hge2] at hg
          cases hg
        have hlen2 : ((w.take 100).take i).length = i := by
          rw [List.length_take]
          exact min_eq_left (le_of_lt hilen)
        rw [List.getLast?_eq_getElem?, hlen2, List.getElem?_take] at hc
        rw [if_pos (by omega)] at hc
        intro he
        subst he
        have hpair := pair_infix_of_get (i - 1) hc
          (by rw [show i - 1 + 1 = i by omega]; exact hg)
        exact hpf (hpair.trans (List.take_prefix 100 w).isInfix)
      · intro he
        subst he
        rename_i hlen100
        have hlen : (w.take 100).length = 100 := by
          simp only [List.length_take]
          omega
        rw [List.getLast?_eq_getElem?, hlen] at hc
        exact lastIdxOfSep_spec_upper i heq 99 (by omega) hc
    · rename_i heq
      intro he
      subst he
      exact lastIdxOfSep_none heq (List.mem_of_mem_getLast? hc)
  · exact hlast c hc

theorem collapseSeps_head_of {u : List Char}
    (h : ∀ c, u.head? = some c → c ≠ '-') :
    ∀ c, (collapseSeps u).head? = some c → c ≠ '-' := by
  intro c hc
  cases u with
  | nil => simp [collapseSeps, collapseSepsGo] at hc
  | cons a rest =>
    have ha : a ≠ '-' := h a rfl
    unfold collapseSeps at hc
    simp only [collapseSepsGo, if_neg ha, List.head?_cons] at hc
    cases hc
    exact ha

/-- C10: with its default options, slug generation returns a string made
only of lowercase ASCII letters, digits and the separator, with no leading
or trailing separator, no two adjacent separators, and at most 100
characters; the result can be empty even for a nonempty display name, as
for the name "???", so a record can be written with an empty slug. -/
theorem slugify_default_shape :
    (∀ s : List Char,
      (∀ c ∈ slugify s,
        ((97 ≤ c.toNat ∧ c.toNat ≤ 122) ∨ (48 ≤ c.toNat ∧ c.toNat ≤ 57)) ∨
          c = '-') ∧
      (∀ c, (slugify s).head? = some c → c ≠ '-') ∧
      (∀ c, (slugify s).getLast? = some c → c ≠ '-') ∧
      ¬(['-', '-'] <:+: slugify s) ∧
      (slugify s).length ≤ 100) ∧
    (("???".data : List Char) ≠ [] ∧ slugifyCompanyName ("???".data) = []) := by
  constructor
  · intro s
    by_cases hs : s = []
    · subst hs
      refine ⟨?_, ?_, ?_, ?_, ?_⟩ <;> simp [slugify]
    · unfold slugify
      rw [if_neg hs]
      have hv : ∀ c ∈ replaceApost
          ((replaceIJmixed (replaceIJcap (mapChars (Vat.trimChars s)))).map
            jsToLower),
          c = '-' ∨ ¬(65 ≤ c.toNat ∧ c.toNat ≤ 90) := by
        intro c hc
        unfold replaceApost at hc
        rw [List.mem_map] at hc
        obtain ⟨b, hb, hbc⟩ := hc
        by_cases hap : apostChar b = true
        · rw [if_pos hap] at hbc
          exact Or.inl hbc.symm
        · rw [if_neg hap] at hbc
          subst hbc
          rw [List.mem_map] at hb
          obtain ⟨d, -, hd⟩ := hb
          subst hd
          exact Or.inr (jsToLower_not_upper d)
      set v := replaceApost
        ((replaceIJmixed (replaceIJcap (mapChars (Vat.trimChars s)))).map
          jsToLower) with hveq
      set u := stripSeps (collapseNonAlnum v) with hueq
      set w := collapseSeps u with hweq
      have hw_chars : ∀ c ∈ w,
          ((97 ≤ c.toNat ∧ c.toNat ≤ 122) ∨ (48 ≤ c.toNat ∧ c.toNat ≤ 57)) ∨
            c = '-' := by
        intro c hc
        rcases collapseSepsGo_mem false c hc with hcu | h
        · have hcn : c ∈ collapseNonAlnum v := stripSeps_subset c hcu
          rcases collapseGo_mem false c hcn with ⟨hcv, hal⟩ | h
          · rcases hv c hcv with he | hup
            · exact Or.inr he
            · simp only [isAlnum, Bool.or_eq_true, Bool.and_eq_true,
                decide_eq_true_eq] at hal
              exact Or.inl (by omega)
          · exact Or.inr h
        · exact Or.inr h
      have hw_head : ∀ c, w.head? = some c → c ≠ '-' :=
        collapseSeps_head_of stripSeps_head
      have hw_pf : ¬(['-', '-'] <:+: w) := collapseSepsGo_pair_free false
      have hw_last : ∀ c, w.getLast? = some c → c ≠ '-' := by
        by_cases hu : u = []
        · intro c hc
          rw [hweq, hu] at hc
          simp [collapseSeps, collapseSepsGo] at hc
        · exact (collapseSepsGo_last false hu stripSeps_last).2
      refine ⟨?_, truncateSlug_head hw_head, truncateSlug_last hw_pf hw_last,
        ?_, truncateSlug_length w⟩
      · intro c hc
        exact hw_chars c ((truncateSlug_isPrefixOfInput w).subset hc)
      · intro hp
        exact hw_pf (hp.trans (truncateSlug_isPrefixOfInput w).isInfix)
  · exact ⟨by decide, by decide⟩

/-- Witness for C10 at the name from the source documentation. -/
theorem slugify_default_shape_witness :
    (slugify ("Boulangerie André & Fils".data)).length ≤ 100 ∧
    slugify ("Boulangerie André & Fils".data) =
      "boulangerie-andre-and-fils".data := by
  refine ⟨(slugify_default_shape.1 _).2.2.2.2, by decide⟩

end Slug

namespace Joiner

/-- trim on host strings (ASCII whitespace model, as for the key
normalizer). -/
def jsTrimS (s : String) : String := (Vat.trimChars s.data).asString

/-- toLowerCase on host strings (ASCII model). -/
def jsToLowerS (s : String) : String := (s.data.map Slug.jsToLower).asString

/-- A trimmed field made optional: empty becomes undefined, as the
source's trim-or-undefined pattern does. -/
def optOfString (s : String) : Option String :=
  if jsTrimS s = "" then none else some (jsTrimS s)

structure CompanyNames where
  fr : Option String := none
  nl : Option String := none
  de : Option String := none
  en : Option String := none
  commercial : Option String := none
  abbreviation : Option String := none
deriving DecidableEq

structure CompanyAddress where
  street_fr : Option String := none
  street_nl : Option String := none
  number : Option String := none
  box : Option String := none
  postal_code : Option String := none
  city_fr : Option String := none
  city_nl : Option String := none
  country : String := "BE"
deriving DecidableEq

structure CompanyContact where
  phone : Option String := none
  email : Option String := none
  website : Option String := none
  fax : Option String := none
deriving DecidableEq

/-- The per-entity builder record accumulated by the joiner (the fields
the name and address passes read and write). -/
structure CompanyBuildData where
  vatNumber : List Char := []
  names : CompanyNames := {}
  address : Option CompanyAddress := none
deriving DecidableEq

/-- The in-memory index of builder records keyed by normalized key. -/
def DataMap : Type := List Char → Option CompanyBuildData

def updateMap (m : DataMap) (k : List Char) (bd : CompanyBuildData) : DataMap :=
  fun k2 => if k2 = k then some bd else m k2

structure DenominationRow where
  entityNumber : List Char
  language : String
  typeOfDenomination : String
  denomination : String

structure AddressRow where
  entityNumber : List Char
  typeOfAddress : String
  zipcode : String
  municipalityNL : String
  municipalityFR : String
  streetNL : String
  streetFR : String
  houseNumber : String
  box : String

structure ContactRow where
  entityNumber : List Char
  entityContact : String
  contactType : String
  value : String

/-- The six name slots of the multilingual name set. -/
inductive NameField where
  | fr | nl | de | en | commercial | abbreviation
deriving DecidableEq

/-- The language code lookup of the denomination pass: 1 FR, 2 NL, 3 DE,
4 EN. -/
def langMap : String → Option NameField
  | "1" => some .fr
  | "2" => some .nl
  | "3" => some .de
  | "4" => some .en
  | _ => none

def getName (n : CompanyNames) : NameField → Option String
  | .fr => n.fr
  | .nl => n.nl
  | .de => n.de
  | .en => n.en
  | .commercial => n.commercial
  | .abbreviation => n.abbreviation

def setName (n : CompanyNames) : NameField → String → CompanyNames
  | .fr, v => { n with fr := some v }
  | .nl, v => { n with nl := some v }
  | .de, v => { n with de := some v }
  | .en, v => { n with en := some v }
  | .commercial, v => { n with commercial := some v }
  | .abbreviation, v => { n with abbreviation := some v }

/-- One row of the denomination pass: skip unknown or unindexed keys and
blank names; official names (type 001) land in their language slot,
abbreviations in 002, commercial names in 003; a slot already holding a
value is never overwritten (the source tests the slot for a value before
assigning; stored values are nonempty so the test is emptiness). -/
def enrichDenomStep (m : DataMap) (row : DenominationRow) : DataMap :=
  match Vat.normalizeVat row.entityNumber with
  | none => m
  | some k =>
    match m k with
    | none => m
    | some bd =>
      if jsTrimS row.denomination = "" then m
      else if row.typeOfDenomination = "001" then
        match langMap row.language with
        | none => m
        | some f =>
          if (getName bd.names f).isNone then
            updateMap m k
              { bd with names := setName bd.names f (jsTrimS row.denomination) }
          else m
      else if row.typeOfDenomination = "002" then
        if bd.names.abbreviation.isNone then
          updateMap m k
            { bd with names :=
                setName bd.names .abbreviation (jsTrimS row.denomination) }
        else m
      else if row.typeOfDenomination = "003" then
        if bd.names.commercial.isNone then
          updateMap m k
            { bd with names :=
                setName bd.names .commercial (jsTrimS row.denomination) }
        else m
      else m

def enrichWithDenominations (rows : List DenominationRow) (m : DataMap) :
    DataMap := rows.foldl enrichDenomStep m

/-- The address built from one address row. -/
def addrVal (row : AddressRow) : CompanyAddress :=
  { street_fr := optOfString row.streetFR
    street_nl := optOfString row.streetNL
    number := optOfString row.houseNumber
    box := optOfString row.box
    postal_code := optOfString row.zipcode
    city_fr := optOfString row.municipalityFR
    city_nl := optOfString row.municipalityNL
    country := "BE" }

/-- One row of the address pass: only registered-office rows for known
keys; the first accepted address wins; a row is accepted only with at
least one street and one city field. -/
def enrichAddrStep (m : DataMap) (row : AddressRow) : DataMap :=
  match Vat.normalizeVat row.entityNumber with
  | none => m
  | some k =>
    match m k with
    | none => m
    | some bd =>
      if row.typeOfAddress ≠ "REGO" then m
      else if bd.address.isSome then m
      else
        if ((addrVal row).street_fr.isSome || (addrVal row).street_nl.isSome) &&
            ((addrVal row).city_fr.isSome || (addrVal row).city_nl.isSome) then
          updateMap m k { bd with address := some (addrVal row) }
        else m

def enrichWithAddresses (rows : List AddressRow) (m : DataMap) : DataMap :=
  rows.foldl enrichAddrStep m

def ContactMap : Type := List Char → Option CompanyContact

inductive ContactField where
  | phone | email | website | fax
deriving DecidableEq

def getC (c : CompanyContact) : ContactField → Option String
  | .phone => c.phone
  | .email => c.email
  | .website => c.website
  | .fax => c.fax

/-- The switch of the contact pass: first-seen value per contact type;
email lowercased, website given a scheme when it does not start with
"http". -/
def contactUpd (c : CompanyContact) (ty v : String) : CompanyContact :=
  if ty = "TEL" then
    if c.phone.isNone then { c with phone := some v } else c
  else if ty = "EMAIL" then
    if c.email.isNone then { c with email := some (jsToLowerS v) } else c
  else if ty = "WEB" then
    if c.website.isNone then
      { c with website := some (if ("http".data).isPrefixOf v.data then v
          else "https://" ++ v) }
    else c
  else if ty = "FAX" then
    if c.fax.isNone then { c with fax := some v } else c
  else c

/-- One row of the contact pass: enterprise-level rows only, keys known
from the identity pass, blank values skipped; an entry is created on first
sight and then updated per contact type. -/
def parseContactsStep (vats : List Char → Bool) (cm : ContactMap)
    (row : ContactRow) : ContactMap :=
  if row.entityContact ≠ "ENT" then cm
  else
    match Vat.normalizeVat row.entityNumber with
    | none => cm
    | some k =>
      if !(vats k) then cm
      else if jsTrimS row.value = "" then cm
      else
        fun k2 =>
          if k2 = k then
            some (contactUpd ((cm k).getD {}) row.contactType (jsTrimS row.value))
          else cm k2

def parseContacts (vats : List Char → Bool) (rows : List ContactRow) :
    ContactMap := rows.foldl (parseContactsStep vats) (fun _ => none)

section FirstWins

variable {σ Row α : Type}

theorem foldl_persist (step : σ → Row → σ) (g : σ → Option α) (I : σ → Prop)
    (Hpres : ∀ s r, I s → I (step s r))
    (H3 : ∀ s r v, I s → g s = some v → g (step s r) = some v) :
    ∀ (rows : List Row) (s : σ) (v : α), I s → g s = some v →
      g (List.foldl step s rows) = some v := by
  intro rows
  induction rows with
  | nil =>
    intro s v _ h
    simpa using h
  | cons r rows ih =>
    intro s v hI h
    rw [List.foldl_cons]
    exact ih _ v (Hpres s r hI) (H3 s r v hI h)

/-- First observed value wins: folding a step function that fills an empty
slot exactly on qualifying rows and never overwrites a filled slot yields
the value of the first qualifying row. -/
theorem foldl_first_wins (step : σ → Row → σ) (g : σ → Option α) (I : σ → Prop)
    (qual : Row → Bool) (val : Row → α)
    (Hpres : ∀ s r, I s → I (step s r))
    (H1 : ∀ s r, I s → qual r = true → g s = none → g (step s r) = some (val r))
    (H2 : ∀ s r, I s → qual r = false → g s = none → g (step s r) = none)
    (H3 : ∀ s r v, I s → g s = some v → g (step s r) = some v) :
    ∀ (rows : List Row) (s : σ), I s → g s = none →
      g (List.foldl step s rows) = ((rows.filter qual).head?).map val := by
  intro rows
  induction rows with
  | nil =>
    intro s _ hg
    simpa using hg
  | cons r rows ih =>
    intro s hI hg
    rw [List.foldl_cons, List.filter_cons]
    by_cases hq : qual r = true
    · rw [if_pos hq, List.head?_cons]
      rw [foldl_persist step g I Hpres H3 rows _ (val r) (Hpres s r hI)
        (H1 s r hI hq hg)]
      rfl
    · rw [if_neg hq]
      exact ih _ (Hpres s r hI) (H2 s r hI (by simpa using hq) hg)

end FirstWins

/-- The name slot a denomination row targets, if any: blank names, unknown
denomination types and unknown language codes target nothing. -/
def rowField (row : DenominationRow) : Option NameField :=
  if jsTrimS row.denomination = "" then none
  else if row.typeOfDenomination = "001" then langMap row.language
  else if row.typeOfDenomination = "002" then some .abbreviation
  else if row.typeOfDenomination = "003" then some .commercial
  else none

theorem getName_setName (n : CompanyNames) (f f2 : NameField) (v : String) :
    getName (setName n f v) f2 = if f2 = f then some v else getName n f2 := by
  cases f <;> cases f2 <;> simp [getName, setName]

theorem updateMap_isSome {m : DataMap} {k : List Char} {bd : CompanyBuildData}
    (h : (m k).isSome = true) (k2 : List Char) :
    ((updateMap m k bd) k2).isSome = (m k2).isSome := by
  unfold updateMap
  by_cases he : k2 = k
  · rw [if_pos he, he, h]
    rfl
  · rw [if_neg he]

/-- The denomination step in closed form. -/
theorem enrichDenomStep_eq (m : DataMap) (row : DenominationRow) :
    enrichDenomStep m row =
      (Vat.normalizeVat row.entityNumber).elim m (fun k =>
        (m k).elim m (fun bd =>
          (rowField row).elim m (fun f =>
            if (getName bd.names f).isNone then
              updateMap m k
                { bd with names := setName bd.names f (jsTrimS row.denomination) }
            else m))) := by
  unfold enrichDenomStep rowField
  split
  · rename_i heq
    rw [heq, Option.elim_none]
  · rename_i k heq
    rw [heq, Option.elim_some]
    split
    · rename_i hm
      rw [hm, Option.elim_none]
    · rename_i bd hm
      rw [hm, Option.elim_some]
      by_cases hd : jsTrimS row.denomination = ""
      · rw [if_pos hd, if_pos hd, Option.elim_none]
      · rw [if_neg hd, if_neg hd]
        by_cases t1 : row.typeOfDenomination = "001"
        · rw [if_pos t1, if_pos t1]
          cases hl : langMap row.language with
          | none => rw [Option.elim_none]
          | some f => rw [Option.elim_some]
        · rw [if_neg t1, if_neg t1]
          by_cases t2 : row.typeOfDenomination = "002"
          · rw [if_pos t2, if_pos t2, Option.elim_some]
            rfl
          · rw [if_neg t2, if_neg t2]
            by_cases t3 : row.typeOfDenomination = "003"
            · rw [if_pos t3, if_pos t3, Option.elim_some]
              rfl
            · rw [if_neg t3, if_neg t3, Option.elim_none]

/-- A denomination row qualifies for key `k` and name slot `f` when its key
normalizes to `k` and it targets slot `f` with a nonblank name. -/
def denomQual (k : List Char) (f : NameField) (r : DenominationRow) : Bool :=
  (Vat.normalizeVat r.entityNumber == some k) && (rowField r == some f)

theorem updateMap_same (m : DataMap) (k : List Char) (bd : CompanyBuildData) :
    (updateMap m k bd) k = some bd := by
  simp [updateMap]

theorem updateMap_other (m : DataMap) {k k2 : List Char}
    (bd : CompanyBuildData) (h : k2 ≠ k) : (updateMap m k bd) k2 = m k2 := by
  simp [updateMap, h]

/-- A filled name slot survives one denomination step. -/
theorem denomStep_persist (m : DataMap) (row : DenominationRow)
    (k : List Char) (f : NameField) (v : String) (hI : (m k).isSome = true)
    (hg : ((m k).bind fun bd => getName bd.names f) = some v) :
    (((enrichDenomStep m row) k).bind fun bd => getName bd.names f) = some v := by
  obtain ⟨bd0, hm0⟩ := Option.isSome_iff_exists.mp hI
  have hgv : getName bd0.names f = some v := by
    rw [hm0] at hg
    exact hg
  rw [enrichDenomStep_eq]
  cases hn : Vat.normalizeVat row.entityNumber with
  | none =>
    rw [Option.elim_none]
    exact hg
  | some k2 =>
    rw [Option.elim_some]
    by_cases hk : k2 = k
    · subst hk
      rw [hm0, Option.elim_some]
      cases hf : rowField row with
      | none =>
        rw [Option.elim_none]
        exact hg
      | some f2 =>
        rw [Option.elim_some]
        split
        · rename_i hguard
          have hff : f ≠ f2 := by
            intro h
            subst h
            rw [hgv] at hguard
            cases hguard
          rw [updateMap_same]
          show getName (setName bd0.names f2 (jsTrimS row.denomination)) f = some v
          rw [getName_setName, if_neg hff]
          exact hgv
        · exact hg
    · cases hm2 : m k2 with
      | none =>
        rw [Option.elim_none]
        exact hg
      | some bd2 =>
        rw [Option.elim_some]
        cases hf : rowField row with
        | none =>
          rw [Option.elim_none]
          exact hg
        | some f2 =>
          rw [Option.elim_some]
          split
          · rw [updateMap_other m _ (fun he => hk he.symm)]
            exact hg
          · exact hg

/-- A qualifying denomination row fills an empty name slot with its
trimmed denomination. -/
theorem denomStep_fills (m : DataMap) (row : DenominationRow)
    (k : List Char) (f : NameField) (hI : (m k).isSome = true)
    (hq : denomQual k f row = true)
    (hg : ((m k).bind fun bd => getName bd.names f) = none) :
    (((enrichDenomStep m row) k).bind fun bd => getName bd.names f) =
      some (jsTrimS row.denomination) := by
  obtain ⟨bd0, hm0⟩ := Option.isSome_iff_exists.mp hI
  have hgv : getName bd0.names f = none := by
    rw [hm0] at hg
    exact hg
  unfold denomQual at hq
  simp only [Bool.and_eq_true, beq_iff_eq] at hq
  obtain ⟨hn, hf⟩ := hq
  rw [enrichDenomStep_eq, hn, Option.elim_some, hm0, Option.elim_some, hf,
    Option.elim_some, if_pos (by rw [hgv]; rfl), updateMap_same]
  show getName (setName bd0.names f (jsTrimS row.denomination)) f =
    some (jsTrimS row.denomination)
  rw [getName_setName, if_pos rfl]

/-- A non-qualifying denomination row leaves an empty name slot empty. -/
theorem denomStep_skips (m : DataMap) (row : DenominationRow)
    (k : List Char) (f : NameField) (hI : (m k).isSome = true)
    (hq : denomQual k f row = false)
    (hg : ((m k).bind fun bd => getName bd.names f) = none) :
    (((enrichDenomStep m row) k).bind fun bd => getName bd.names f) = none := by
  obtain ⟨bd0, hm0⟩ := Option.isSome_iff_exists.mp hI
  have hgv : getName bd0.names f = none := by
    rw [hm0] at hg
    exact hg
  unfold denomQual at hq
  rw [enrichDenomStep_eq]
  cases hn : Vat.normalizeVat row.entityNumber with
  | none =>
    rw [Option.elim_none]
    exact hg
  | some k2 =>
    rw [Option.elim_some]
    by_cases hk : k2 = k
    · subst hk
      rw [hm0, Option.elim_some]
      cases hf : rowField row with
      | none =>
        rw [Option.elim_none]
        exact hg
      | some f2 =>
        rw [Option.elim_some]
        have hff : f ≠ f2 := by
          intro h
          subst h
          rw [hn, hf] at hq
          simp at hq
        split
        · rw [updateMap_same]
          show getName (setName bd0.names f2 (jsTrimS row.denomination)) f = none
          rw [getName_setName, if_neg hff]
          exact hgv
        · exact hg
    · cases hm2 : m k2 with
      | none =>
        rw [Option.elim_none]
        exact hg
      | some bd2 =>
        rw [Option.elim_some]
        cases hf : rowField row with
        | none =>
          rw [Option.elim_none]
          exact hg
        | some f2 =>
          rw [Option.elim_some]
          split
          · rw [updateMap_other m _ (fun he => hk he.symm)]
            exact hg
          · exact hg

/-- The denomination step never adds or removes entries of the index. -/
theorem denomStep_isSome (m : DataMap) (row : DenominationRow)
    (k : List Char) (hI : (m k).isSome = true) :
    (((enrichDenomStep m row) k).isSome) = true := by
  rw [enrichDenomStep_eq]
  cases hn : Vat.normalizeVat row.entityNumber with
  | none =>
    rw [Option.elim_none]
    exact hI
  | some k2 =>
    rw [Option.elim_some]
    cases hm2 : m k2 with
    | none =>
      rw [Option.elim_none]
      exact hI
    | some bd2 =>
      rw [Option.elim_some]
      cases hf : rowField row with
      | none =>
        rw [Option.elim_none]
        exact hI
      | some f2 =>
        rw [Option.elim_some]
        split
        · rw [updateMap_isSome (by rw [hm2]; rfl)]
          exact hI
        · exact hI

/-- An address row qualifies for key `k` when its key normalizes to `k`,
it is a registered-office row, and it carries a street and a city. -/
def addrQual (k : List Char) (r : AddressRow) : Bool :=
  (Vat.normalizeVat r.entityNumber == some k) && (r.typeOfAddress == "REGO") &&
  ((addrVal r).street_fr.isSome || (addrVal r).street_nl.isSome) &&
  ((addrVal r).city_fr.isSome || (addrVal r).city_nl.isSome)

/-- The address step in closed form. -/
theorem enrichAddrStep_eq (m : DataMap) (row : AddressRow) :
    enrichAddrStep m row =
      (Vat.normalizeVat row.entityNumber).elim m (fun k =>
        (m k).elim m (fun bd =>
          if row.typeOfAddress ≠ "REGO" then m
          else if bd.address.isSome then m
          else if ((addrVal row).street_fr.isSome ||
                (addrVal row).street_nl.isSome) &&
              ((addrVal row).city_fr.isSome || (addrVal row).city_nl.isSome)
            then updateMap m k { bd with address := some (addrVal row) }
          else m)) := by
  unfold enrichAddrStep
  split
  · rename_i heq
    rw [heq, Option.elim_none]
  · rename_i k heq
    rw [heq, Option.elim_some]
    split
    · rename_i hm
      rw [hm, Option.elim_none]
    · rename_i bd hm
      rw [hm, Option.elim_some]

/-- A stored address survives one address step. -/
theorem addrStep_persist (m : DataMap) (row : AddressRow)
    (k : List Char) (v : CompanyAddress) (hI : (m k).isSome = true)
    (hg : ((m k).bind fun bd => bd.address) = some v) :
    (((enrichAddrStep m row) k).bind fun bd => bd.address) = some v := by
  obtain ⟨bd0, hm0⟩ := Option.isSome_iff_exists.mp hI
  have hgv : bd0.address = some v := by
    rw [hm0] at hg
    exact hg
  rw [enrichAddrStep_eq]
  cases hn : Vat.normalizeVat row.entityNumber with
  | none =>
    rw [Option.elim_none]
    exact hg
  | some k2 =>
    rw [Option.elim_some]
    by_cases hk : k2 = k
    · subst hk
      rw [hm0, Option.elim_some]
      split
      · exact hg
      · split
        · exact hg
        · rename_i hset
          rw [hgv] at hset
          cases hset rfl
    · cases hm2 : m k2 with
      | none =>
        rw [Option.elim_none]
        exact hg
      | some bd2 =>
        rw [Option.elim_some]
        split
        · exact hg
        · split
          · exact hg
          · split
            · rw [updateMap_other m _ (fun he => hk he.symm)]
              exact hg
            · exact hg

/-- A qualifying address row fills an empty address slot. -/
theorem addrStep_fills (m : DataMap) (row : AddressRow)
    (k : List Char) (hI : (m k).isSome = true)
    (hq : addrQual k row = true)
    (hg : ((m k).bind fun bd => bd.address) = none) :
    (((enrichAddrStep m row) k).bind fun bd => bd.address) =
      some (addrVal row) := by
  obtain ⟨bd0, hm0⟩ := Option.isSome_iff_exists.mp hI
  have hgv : bd0.address = none := by
    rw [hm0] at hg
    exact hg
  unfold addrQual at hq
  simp only [Bool.and_eq_true, beq_iff_eq] at hq
  obtain ⟨⟨⟨hn, hrego⟩, hstreet⟩, hcity⟩ := hq
  rw [enrichAddrStep_eq, hn, Option.elim_some, hm0, Option.elim_some,
    if_neg (by rw [hrego]; simp), if_neg (by rw [hgv]; simp),
    if_pos (by rw [hstreet, hcity]; rfl), updateMap_same]
  rfl

/-- A non-qualifying address row leaves an empty address slot empty. -/
theorem addrStep_skips (m : DataMap) (row : AddressRow)
    (k : List Char) (hI : (m k).isSome = true)
    (hq : addrQual k row = false)
    (hg : ((m k).bind fun bd => bd.address) = none) :
    (((enrichAddrStep m row) k).bind fun bd => bd.address) = none := by
  obtain ⟨bd0, hm0⟩ := Option.isSome_iff_exists.mp hI
  unfold addrQual at hq
  rw [enrichAddrStep_eq]
  cases hn : Vat.normalizeVat row.entityNumber with
  | none =>
    rw [Option.elim_none]
    exact hg
  | some k2 =>
    rw [Option.elim_some]
    by_cases hk : k2 = k
    · subst hk
      rw [hm0, Option.elim_some]
      split
      · exact hg
      · split
        · exact hg
        · split
          · rename_i hrego hset hsc
            rw [hn] at hq
            have hrego2 : row.typeOfAddress = "REGO" := not_not.mp (by simpa using hrego)
            simp only [Bool.and_eq_true] at hsc
            simp [hrego2, hsc.1, hsc.2] at hq
          · exact hg
    · cases hm2 : m k2 with
      | none =>
        rw [Option.elim_none]
        exact hg
      | some bd2 =>
        rw [Option.elim_some]
        split
        · exact hg
        · split
          · exact hg
          · split
            · rw [updateMap_other m _ (fun he => hk he.symm)]
              exact hg
            · exact hg

/-- The address step never adds or removes entries of the index. -/
theorem addrStep_isSome (m : DataMap) (row : AddressRow)
    (k : List Char) (hI : (m k).isSome = true) :
    (((enrichAddrStep m row) k).isSome) = true := by
  rw [enrichAddrStep_eq]
  cases hn : Vat.normalizeVat row.entityNumber with
  | none =>
    rw [Option.elim_none]
    exact hI
  | some k2 =>
    rw [Option.elim_some]
    cases hm2 : m k2 with
    | none =>
      rw [Option.elim_none]
      exact hI
    | some bd2 =>
      rw [Option.elim_some]
      split
      · exact hI
      · split
        · exact hI
        · split
          · rw [updateMap_isSome (by rw [hm2]; rfl)]
            exact hI
          · exact hI

/-- The contact-type code each contact slot listens to. -/
def contactCode : ContactField → String
  | .phone => "TEL"
  | .email => "EMAIL"
  | .website => "WEB"
  | .fax => "FAX"

/-- The per-slot value transformation of the contact pass. -/
def contactTransform (f : ContactField) (v : String) : String :=
  match f with
  | .email => jsToLowerS v
  | .website =>
    if ("http".data).isPrefixOf v.data then v else "https://" ++ v
  | _ => v

theorem getC_contactUpd (c : CompanyContact) (ty v : String)
    (f : ContactField) :
    getC (contactUpd c ty v) f =
      if ty = contactCode f ∧ (getC c f).isNone = true
      then some (contactTransform f v)
      else getC c f := by
  cases f <;>
    simp only [contactUpd, contactCode, contactTransform, getC] <;>
    split_ifs <;>
    simp_all [getC]

/-- The contact step in closed form. -/
theorem parseContactsStep_eq (vats : List Char → Bool) (cm : ContactMap)
    (row : ContactRow) :
    parseContactsStep vats cm row =
      if row.entityContact ≠ "ENT" then cm
      else
        (Vat.normalizeVat row.entityNumber).elim cm (fun k =>
          if !(vats k) then cm
          else if jsTrimS row.value = "" then cm
          else fun k2 =>
            if k2 = k then
              some (contactUpd ((cm k).getD {}) row.contactType
                (jsTrimS row.value))
            else cm k2) := by
  unfold parseContactsStep
  split
  · rfl
  · split
    · rename_i heq
      rw [heq, Option.elim_none]
    · rename_i k heq
      rw [heq, Option.elim_some]

/-- A contact row qualifies for key `k` and slot `f` when it is an
enterprise-level row whose key normalizes to `k`, a key known from the
identity pass, with a nonblank value of the matching contact type. -/
def contactQual (vats : List Char → Bool) (k : List Char) (f : ContactField)
    (r : ContactRow) : Bool :=
  (r.entityContact == "ENT") && (Vat.normalizeVat r.entityNumber == some k) &&
  vats k && !(jsTrimS r.value == "") && (r.contactType == contactCode f)

/-- A filled contact slot survives one contact step. -/
theorem contactStep_persist (vats : List Char → Bool) (cm : ContactMap)
    (row : ContactRow) (k : List Char) (f : ContactField) (v : String)
    (hg : ((cm k).bind fun c => getC c f) = some v) :
    (((parseContactsStep vats cm row) k).bind fun c => getC c f) = some v := by
  obtain ⟨c0, hc0⟩ : ∃ c, cm k = some c := by
    cases hc : cm k with
    | none => rw [hc] at hg; cases hg
    | some c => exact ⟨c, rfl⟩
  have hgv : getC c0 f = some v := by
    rw [hc0] at hg
    exact hg
  rw [parseContactsStep_eq]
  split
  · exact hg
  · cases hn : Vat.normalizeVat row.entityNumber with
    | none =>
      rw [Option.elim_none]
      exact hg
    | some k2 =>
      rw [Option.elim_some]
      split
      · exact hg
      · split
        · exact hg
        · dsimp only
          by_cases hk : k = k2
          · rw [if_pos hk]
            subst hk
            rw [hc0]
            show getC (contactUpd c0 row.contactType (jsTrimS row.value)) f =
              some v
            rw [getC_contactUpd]
            split
            · rename_i hcond
              rw [hgv] at hcond
              cases hcond.2
            · exact hgv
          · rw [if_neg hk]
            exact hg

/-- A qualifying contact row fills an empty contact slot with its
transformed value. -/
theorem contactStep_fills (vats : List Char → Bool) (cm : ContactMap)
    (row : ContactRow) (k : List Char) (f : ContactField)
    (hq : contactQual vats k f row = true)
    (hg : ((cm k).bind fun c => getC c f) = none) :
    (((parseContactsStep vats cm row) k).bind fun c => getC c f) =
      some (contactTransform f (jsTrimS row.value)) := by
  unfold contactQual at hq
  simp only [Bool.and_eq_true, beq_iff_eq, Bool.not_eq_true'] at hq
  obtain ⟨⟨⟨⟨hent, hn⟩, hvk⟩, hval⟩, hty⟩ := hq
  have hgc : getC ((cm k).getD {}) f = none := by
    cases hc : cm k with
    | none => cases f <;> rfl
    | some c =>
      rw [hc] at hg
      simpa using hg
  rw [parseContactsStep_eq, if_neg (by rw [hent]; simp), hn, Option.elim_some,
    if_neg (by rw [hvk]; simp), if_neg (by simpa using hval)]
  rw [if_pos rfl]
  show getC (contactUpd ((cm k).getD {}) row.contactType (jsTrimS row.value)) f =
    some (contactTransform f (jsTrimS row.value))
  rw [getC_contactUpd, if_pos ⟨hty, by rw [hgc]; rfl⟩]

/-- A non-qualifying contact row leaves an empty contact slot empty. -/
theorem contactStep_skips (vats : List Char → Bool) (cm : ContactMap)
    (row : ContactRow) (k : List Char) (f : ContactField)
    (hq : contactQual vats k f row = false)
    (hg : ((cm k).bind fun c => getC c f) = none) :
    (((parseContactsStep vats cm row) k).bind fun c => getC c f) = none := by
  unfold contactQual at hq
  have hgc : getC ((cm k).getD {}) f = none := by
    cases hc : cm k with
    | none => cases f <;> rfl
    | some c =>
      rw [hc] at hg
      simpa using hg
  rw [parseContactsStep_eq]
  split
  · exact hg
  · rename_i hent
    have hent2 : row.entityContact = "ENT" := not_not.mp (by simpa using hent)
    cases hn : Vat.normalizeVat row.entityNumber with
    | none =>
      rw [Option.elim_none]
      exact hg
    | some k2 =>
      rw [Option.elim_some]
      split
      · exact hg
      · split
        · exact hg
        · rename_i hvk hval
          dsimp only
          by_cases hk : k = k2
          · rw [if_pos hk]
            subst hk
            show getC (contactUpd ((cm k).getD {}) row.contactType
              (jsTrimS row.value)) f = none
            rw [getC_contactUpd]
            split
            · rename_i hcond
              rw [hent2, hn, hcond.1] at hq
              have hvk2 : vats k = true := by
                simpa using hvk
              have hval2 : ¬(jsTrimS row.value = "") := by
                simpa using hval
              simp [hvk2, hval2] at hq
            · exact hgc
          · rw [if_neg hk]
            exact hg

/-- C6: in the name, address and contact passes, when several rows supply a
value for the same field of a key known from the identity pass, the first
value observed for that field is kept and every later row targeting an
already-set field is ignored: the final value of each field is the value
carried by the first qualifying row. -/
theorem joiner_first_value_wins (k : List Char) (m0 : DataMap)
    (bd0 : CompanyBuildData) (hk : m0 k = some bd0) :
    (∀ (rows : List DenominationRow) (f : NameField),
      getName bd0.names f = none →
      (((enrichWithDenominations rows m0) k).bind fun bd =>
          getName bd.names f) =
        ((rows.filter (denomQual k f)).head?).map
          (fun r => jsTrimS r.denomination)) ∧
    (∀ rows : List AddressRow,
      bd0.address = none →
      (((enrichWithAddresses rows m0) k).bind fun bd => bd.address) =
        ((rows.filter (addrQual k)).head?).map addrVal) ∧
    (∀ (rows : List ContactRow) (vats : List Char → Bool) (f : ContactField),
      (((parseContacts vats rows) k).bind fun c => getC c f) =
        ((rows.filter (contactQual vats k f)).head?).map
          (fun r => contactTransform f (jsTrimS r.value))) := by
  refine ⟨?_, ?_, ?_⟩
  · intro rows f hempty
    exact foldl_first_wins enrichDenomStep
      (fun m => (m k).bind fun bd => getName bd.names f)
      (fun m => (m k).isSome = true) (denomQual k f)
      (fun r => jsTrimS r.denomination)
      (fun m r hI => denomStep_isSome m r k hI)
      (fun m r hI hq hg => denomStep_fills m r k f hI hq hg)
      (fun m r hI hq hg => denomStep_skips m r k f hI hq hg)
      (fun m r v hI hg => denomStep_persist m r k f v hI hg)
      rows m0 (show (m0 k).isSome = true by rw [hk]; rfl)
      (show ((m0 k).bind fun bd => getName bd.names f) = none by
        rw [hk]; exact hempty)
  · intro rows hempty
    exact foldl_first_wins enrichAddrStep
      (fun m => (m k).bind fun bd => bd.address)
      (fun m => (m k).isSome = true) (addrQual k) addrVal
      (fun m r hI => addrStep_isSome m r k hI)
      (fun m r hI hq hg => addrStep_fills m r k hI hq hg)
      (fun m r hI hq hg => addrStep_skips m r k hI hq hg)
      (fun m r v hI hg => addrStep_persist m r k v hI hg)
      rows m0 (show (m0 k).isSome = true by rw [hk]; rfl)
      (show ((m0 k).bind fun bd => bd.address) = none by
        rw [hk]; exact hempty)
  · intro rows vats f
    exact foldl_first_wins (parseContactsStep vats)
      (fun cm => (cm k).bind fun c => getC c f)
      (fun _ => True) (contactQual vats k f)
      (fun r => contactTransform f (jsTrimS r.value))
      (fun _ _ _ => trivial)
      (fun cm r _ hq hg => contactStep_fills vats cm r k f hq hg)
      (fun cm r _ hq hg => contactStep_skips vats cm r k f hq hg)
      (fun cm r v _ hg => contactStep_persist vats cm r k f v hg)
      rows (fun _ => none) trivial rfl

/-- Witness for C6: two official-FR name rows, two registered-office
address rows and two email rows for one key; the first row of each kind
wins (the name and email transformed as the pass stores them). -/
theorem joiner_first_value_wins_witness :
    (((enrichWithDenominations
        [⟨"0417497106".data, "1", "001", " Alpha "⟩,
         ⟨"0417497106".data, "1", "001", "Beta"⟩]
        (fun k2 => if k2 = "0417497106".data then some {} else none))
        ("0417497106".data)).bind fun bd => getName bd.names .fr) =
      some "Alpha" ∧
    (((enrichWithAddresses
        [⟨"0417497106".data, "REGO", "1000", "Brussel", "Bruxelles", "Straat",
          "Rue", "1", ""⟩,
         ⟨"0417497106".data, "REGO", "2000", "B2", "B2f", "S2", "R2", "2", ""⟩]
        (fun k2 => if k2 = "0417497106".data then some {} else none))
        ("0417497106".data)).bind fun bd => bd.address) =
      some (addrVal ⟨"0417497106".data, "REGO", "1000", "Brussel", "Bruxelles",
        "Straat", "Rue", "1", ""⟩) ∧
    (((parseContacts (fun k2 => k2 == "0417497106".data)
        [⟨"0417497106".data, "ENT", "EMAIL", " Foo@Bar.com "⟩,
         ⟨"0417497106".data, "ENT", "EMAIL", "second@x.com"⟩])
        ("0417497106".data)).bind fun c => getC c .email) =
      some "foo@bar.com" := by
  have h := joiner_first_value_wins ("0417497106".data)
    (fun k2 => if k2 = "0417497106".data then some {} else none) {} rfl
  exact ⟨(h.1 _ .fr rfl).trans (by decide), (h.2.1 _ rfl).trans (by decide),
    (h.2.2 _ _ .email).trans (by decide)⟩

end Joiner

namespace Activity

structure ActivityRow where
  entityNumber : List Char
  activityGroup : String
  naceVersion : String
  naceCode : String
  classification : String

/-- One accumulated batch entry: the codes seen for a key and the first
MAIN-classified code. -/
structure BatchEntry where
  codes : List String
  main : Option String
deriving DecidableEq

/-- The bounded in-memory batch, an insertion-ordered map keyed by
normalized key (the host Map). -/
def Batch : Type := List (List Char × BatchEntry)

def batchLookup (b : Batch) (k : List Char) : Option BatchEntry :=
  (b.find? (fun p => p.1 == k)).map (fun p => p.2)

def batchSet : Batch → List Char → BatchEntry → Batch
  | [], k, e => [(k, e)]
  | (k2, e2) :: rest, k, e =>
    if k2 = k then (k, e) :: rest else (k2, e2) :: batchSet rest k e

/-- One stored row's activity columns. -/
structure StoreRow where
  naceCodes : List String
  naceMain : Option String
deriving DecidableEq

def Store : Type := List Char → Option StoreRow

/-- Host-language truthiness of an optional string: undefined and the
empty string are falsy. -/
def strTruthy : Option String → Bool
  | none => false
  | some s => !(s == "")

/-- One targeted update of batchUpdateNaceCodes: replace the stored code
set by the batch entry's codes, and set the main code only when the entry
carries one (rows absent from the store are left absent, as an update by
key matches nothing). -/
def applyNaceUpdate (st : Store) (k : List Char) (e : BatchEntry) : Store :=
  fun k2 =>
    if k2 = k then
      match st k with
      | none => none
      | some row =>
        some { naceCodes := e.codes
               naceMain := if strTruthy e.main then e.main else row.naceMain }
    else st k2

/-- batchUpdateNaceCodes from the store writer: per-key updates issued
over the batch (the source runs them in awaited chunks of 100 concurrent
updates; keys of one batch are distinct, so the sequential fold computes
the same store). -/
def batchUpdateNaceCodes (st : Store) (b : Batch) : Store :=
  b.foldl (fun s p => applyNaceUpdate s p.1 p.2) st

/-- One row of the activity streaming pass: keep only the two accepted
code versions, accumulate the code if not already present for the key,
record the first MAIN classification, and flush the batch once it reaches
the configured size. -/
def activityStep (batchSize : Nat) (st : Batch × Store) (row : ActivityRow) :
    Batch × Store :=
  if row.naceVersion ≠ "2008" ∧ row.naceVersion ≠ "2025" then st
  else
    match Vat.normalizeVat row.entityNumber with
    | none => st
    | some k =>
      let entry := (batchLookup st.1 k).getD ⟨[], none⟩
      let entry1 :=
        if row.naceCode ∈ entry.codes then entry
        else { entry with codes := entry.codes ++ [row.naceCode] }
      let entry2 :=
        if row.classification = "MAIN" ∧ strTruthy entry1.main = false then
          { entry1 with main := some row.naceCode }
        else entry1
      let batch2 := batchSet st.1 k entry2
      if batch2.length ≥ batchSize then ([], batchUpdateNaceCodes st.2 batch2)
      else (batch2, st.2)

/-- streamActivityCodes from the importer (dry run disabled): fold the
rows, then flush the remaining batch. -/
def streamActivityCodes (batchSize : Nat) (rows : List ActivityRow)
    (st0 : Store) : Store :=
  let r := rows.foldl (activityStep batchSize) ([], st0)
  if r.1.length > 0 then batchUpdateNaceCodes r.2 r.1 else r.2

/-- The failing input: three accepted rows, the key of interest split
across two flush batches by the interleaved second key. -/
def keyK : List Char := "0417497106".data

def keyL : List Char := "0123456789".data

def rowKA : ActivityRow := ⟨keyK, "001", "2008", "A", "MAIN"⟩

def rowLB : ActivityRow := ⟨keyL, "001", "2008", "B", "MAIN"⟩

def rowKC : ActivityRow := ⟨keyK, "001", "2008", "C", "SECO"⟩

/-- The store before the pass: both keys known, no activity data. -/
def store0 : Store :=
  fun k => if k = keyK ∨ k = keyL then some ⟨[], none⟩ else none

/-- C1 (code bug): with batch size 2, the three accepted rows split key
K's rows across two flush batches; both "A" and "C" are accepted codes of
K, but the second flush replaces the stored code set with the second
batch's codes, so the final stored set is ["C"] instead of the union
["A", "C"]. -/
theorem activity_split_batch_loses_codes :
    streamActivityCodes 2 [rowKA, rowLB, rowKC] store0 keyK =
      some ⟨["C"], some "A"⟩ ∧
    rowKA.naceVersion = "2008" ∧ rowKA.entityNumber = keyK ∧
    rowKC.naceVersion = "2008" ∧ rowKC.entityNumber = keyK ∧
    "A" ∉ (["C"] : List String) := by
  refine ⟨by decide, rfl, rfl, rfl, rfl, by decide⟩

/-- C2 (code bug): after the same run, key K's stored main code is "A"
(set by the first flush batch and kept by the second, which carries no
MAIN row for K), while the stored full code set has been replaced by
["C"]: the stored main code is not a member of the stored code set, even
though the initial store satisfied the invariant vacuously. -/
theorem activity_main_not_in_codes :
    store0 keyK = some ⟨[], none⟩ ∧
    streamActivityCodes 2 [rowKA, rowLB, rowKC] store0 keyK =
      some ⟨["C"], some "A"⟩ ∧
    "A" ∉ (["C"] : List String) := by
  refine ⟨by decide, by decide, by decide⟩

end Activity

namespace Upsert

/-- The per-batch report of the batch upsert writer. -/
structure BatchResult where
  success : Nat
  failed : Nat
deriving DecidableEq

/-- batchUpsertFromKbo from the store writer: on a store error it logs and
returns a report of zero successes and the whole batch failed — it does
not raise; otherwise the whole batch is reported imported.  The store's
behaviour is the boolean oracle. -/
def batchUpsertFromKbo (storeError : Bool) (batchLen : Nat) : BatchResult :=
  if storeError then ⟨0, batchLen⟩ else ⟨batchLen, 0⟩

/-- The chunking of the upsert loop, in chunks of size `n + 1` (the source
loop steps its index by the positive batch size, so with a list of length
`len` it makes at most `len` steps; the fuel argument makes the recursion
structural and is started at the length). -/
def chunkFuel (n : Nat) : Nat → List α → List (List α)
  | 0, _ => []
  | _ + 1, [] => []
  | fuel + 1, a :: rest =>
    (a :: rest).take (n + 1) :: chunkFuel n fuel ((a :: rest).drop (n + 1))

def chunkList (n : Nat) (l : List α) : List (List α) := chunkFuel n l.length l

/-- The upsert loop of batchInsertCompanies: submit every chunk in order
to the writer (the `i`-th chunk with the store oracle at `i`), accumulate
only the success counts into `imported`, and keep the per-batch reports as
the trace. -/
def runBatchesGo (errAt : Nat → Bool) (i : Nat) :
    List (List α) → Nat × List BatchResult
  | [] => (0, [])
  | c :: rest =>
    (((batchUpsertFromKbo (errAt i) c.length).success +
        (runBatchesGo errAt (i + 1) rest).1),
      batchUpsertFromKbo (errAt i) c.length :: (runBatchesGo errAt (i + 1) rest).2)

/-- The summary batchInsertCompanies returns to the run: the imported
count and the count of records skipped for lack of a name.  There is no
failure component. -/
structure ImportSummary where
  imported : Nat
  skipped : Nat
deriving DecidableEq

/-- batchInsertCompanies (the upsert stage): the already-filtered valid
records are chunked and upserted; `skipped` carries the name-filter count
unchanged. -/
def batchInsertCompanies (validCompanies : List α) (skipped n : Nat)
    (errAt : Nat → Bool) : ImportSummary × List BatchResult :=
  (⟨(runBatchesGo errAt 0 (chunkList n validCompanies)).1, skipped⟩,
    (runBatchesGo errAt 0 (chunkList n validCompanies)).2)

/-- The sum of the per-batch failure counts reported by the writer. -/
def totalFailed (trace : List BatchResult) : Nat :=
  (trace.map (fun r => r.failed)).sum

theorem runBatchesGo_spec (errAt : Nat → Bool) :
    ∀ (chunks : List (List α)) (i : Nat),
      (runBatchesGo errAt i chunks).2 =
        (chunks.enumFrom i).map
          (fun p => batchUpsertFromKbo (errAt p.1) p.2.length) ∧
      (runBatchesGo errAt i chunks).1 =
        ((chunks.enumFrom i).map
          (fun p => if errAt p.1 = true then 0 else p.2.length)).sum := by
  intro chunks
  induction chunks with
  | nil =>
    intro i
    exact ⟨rfl, rfl⟩
  | cons c rest ih =>
    intro i
    obtain ⟨h2, h1⟩ := ih (i + 1)
    constructor
    · simp only [runBatchesGo, List.enumFrom, List.map_cons]
      rw [h2]
    · simp only [runBatchesGo, List.enumFrom, List.map_cons, List.sum_cons]
      rw [h1]
      unfold batchUpsertFromKbo
      by_cases he : errAt i = true
      · rw [if_pos he, if_pos he]
      · rw [if_neg he, if_neg he]

theorem chunkFuel_join (n : Nat) :
    ∀ (fuel : Nat) (l : List α), l.length ≤ fuel →
      (chunkFuel n fuel l).flatten = l := by
  intro fuel
  induction fuel with
  | zero =>
    intro l hl
    cases l with
    | nil => rfl
    | cons a rest => simp at hl
  | succ fuel2 ih =>
    intro l hl
    cases l with
    | nil => rfl
    | cons a rest =>
      have hlen : (List.drop (n + 1) (a :: rest)).length ≤ fuel2 := by
        simp only [List.length_cons] at hl
        simp only [List.length_drop, List.length_cons]
        omega
      rw [chunkFuel, List.flatten_cons, ih _ hlen]
      exact List.take_append_drop _ _

theorem chunkList_join (n : Nat) (l : List α) : (chunkList n l).flatten = l :=
  chunkFuel_join n l.length l le_rfl

/-- C8 (amended): a store write error on one batch does not abort the run
— the writer returns a per-batch failure report instead of raising, every
chunk is submitted in order regardless of earlier failures, and every
record lands in exactly one chunk; the run's final summary however
aggregates only the success counts (`imported`) — the per-batch failure
counts are not carried into it. -/
theorem batch_failure_does_not_abort {α : Type} (companies : List α)
    (skipped n : Nat) (errAt : Nat → Bool) :
    (batchInsertCompanies companies skipped n errAt).2 =
      ((chunkList n companies).enumFrom 0).map
        (fun p => batchUpsertFromKbo (errAt p.1) p.2.length) ∧
    (batchInsertCompanies companies skipped n errAt).1 =
      ⟨(((chunkList n companies).enumFrom 0).map
        (fun p => if errAt p.1 = true then 0 else p.2.length)).sum, skipped⟩ ∧
    (chunkList n companies).flatten = companies ∧
    (∀ m : Nat, batchUpsertFromKbo true m = ⟨0, m⟩) := by
  obtain ⟨h2, h1⟩ := runBatchesGo_spec errAt (chunkList n companies) 0
  refine ⟨h2, ?_, chunkList_join n companies, fun m => rfl⟩
  unfold batchInsertCompanies
  rw [h1]

/-- Counterexample for C8 as stated: two runs with identical final
summaries but different aggregate failure counts — a run of two batches
(sizes 10 and 5) whose first batch fails, and a run of a single batch of 5
with no failure, both end with the summary imported 5, skipped 0, while
the writers reported 10 failed rows in the first run and none in the
second.  The final summary therefore does not aggregate the failures. -/
theorem summary_does_not_carry_failures :
    (batchInsertCompanies (List.replicate 15 0) 0 9 (fun i => i == 0)).1 =
      (batchInsertCompanies (List.replicate 5 0) 0 9 (fun _ => false)).1 ∧
    totalFailed
        (batchInsertCompanies (List.replicate 15 0) 0 9 (fun i => i == 0)).2 =
      10 ∧
    totalFailed
        (batchInsertCompanies (List.replicate 5 0) 0 9 (fun _ => false)).2 =
      0 := by
  refine ⟨by decide, by decide, by decide⟩

end Upsert

namespace Nbb

/-- The extracted financial data (host numbers modeled as rationals; the
host has no NaN here since values come from successful parses). -/
structure NbbFinancialData where
  vatNumber : List Char
  year : Nat
  turnover : Option ℚ
  profitLoss : Option ℚ
  equity : Option ℚ
  employees : Option ℤ
deriving DecidableEq

/-- The rubric-code alias lists of the financial-filing extraction. -/
def TURNOVER : List String := ["70", "70/74", "9903"]

def PROFIT_LOSS : List String := ["9904", "9905", "70/67"]

def EQUITY : List String := ["10/15", "10/49"]

def EMPLOYEES : List String := ["9087", "9097"]

/-- Lookup in the parsed code-to-value record. -/
def recLookup (data : List (String × ℚ)) (code : String) : Option ℚ :=
  (data.find? (fun p => p.1 == code)).map (fun p => p.2)

/-- findByRubric: try the alias codes in order, first match wins. -/
def findByRubric (data : List (String × ℚ)) : List String → Option ℚ
  | [] => none
  | c :: rest =>
    match recLookup data c with
    | some v => some v
    | none => findByRubric data rest

/-- extractFinancialData, modeled from the parsed CSV record and the year
found on the page: each metric resolved through its alias list, employees
rounded. -/
def extractFinancialData (vat : List Char) (year : Nat)
    (csvData : List (String × ℚ)) : NbbFinancialData :=
  { vatNumber := vat
    year := year
    turnover := findByRubric csvData TURNOVER
    profitLoss := findByRubric csvData PROFIT_LOSS
    equity := findByRubric csvData EQUITY
    employees := (findByRubric csvData EMPLOYEES).map (fun x => round x) }

/-- The stored financial snapshot. -/
structure FinancialSummary where
  year : Nat
  turnover : Option ℚ
  profit_loss : Option ℚ
  equity : Option ℚ
  employees : Option ℤ
  net_margin : Option ℚ
deriving DecidableEq

/-- Host truthiness of an optional number: undefined and zero are falsy
(NaN cannot arise here). -/
def ratTruthy : Option ℚ → Bool
  | none => false
  | some x => decide (x ≠ 0)

/-- enrichWithNbb's snapshot construction: the net margin is computed as
profit over turnover times 100 only inside the truthiness guard on both
fields. -/
def enrichWithNbb (d : NbbFinancialData) : FinancialSummary :=
  { year := d.year
    turnover := d.turnover
    profit_loss := d.profitLoss
    equity := d.equity
    employees := d.employees
    net_margin :=
      if ratTruthy d.turnover && ratTruthy d.profitLoss then
        some (d.profitLoss.getD 0 / d.turnover.getD 0 * 100)
      else none }

/-- C9 counterexample: a filing whose turnover rubric reads 1,500,000 and
whose profit rubric reads 0.  Both metrics are present in the extraction
result, yet the snapshot carries no net margin, because the source guards
the computation with truthiness and 0 is falsy. -/
theorem zero_profit_drops_net_margin :
    (extractFinancialData ("0417497106".data) 2023
        [("70", 1500000), ("9904", 0)]).turnover = some 1500000 ∧
    (extractFinancialData ("0417497106".data) 2023
        [("70", 1500000), ("9904", 0)]).profitLoss = some 0 ∧
    (enrichWithNbb (extractFinancialData ("0417497106".data) 2023
        [("70", 1500000), ("9904", 0)])).net_margin = none := by
  exact ⟨rfl, rfl, rfl⟩

/-- C9 (amended): the stored snapshot carries a net margin equal to
profit over turnover times 100 exactly when both metrics are present and
nonzero; when either is absent or zero, no net margin is stored.  The
specification's example filing (turnover 1,500,000, profit 125,000) yields
a net margin of 25/3, approximately 8.33. -/
theorem net_margin_iff_present_nonzero :
    (∀ (d : NbbFinancialData) (v : ℚ),
      (enrichWithNbb d).net_margin = some v ↔
        ∃ t p, d.turnover = some t ∧ d.profitLoss = some p ∧
          t ≠ 0 ∧ p ≠ 0 ∧ v = p / t * 100) ∧
    (enrichWithNbb (extractFinancialData ("0417497106".data) 2023
        [("70", 1500000), ("9904", 125000)])).net_margin = some (25 / 3) := by
  constructor
  · intro d v
    unfold enrichWithNbb
    constructor
    · intro h
      simp only at h
      by_cases hc : (ratTruthy d.turnover && ratTruthy d.profitLoss) = true
      · rw [if_pos hc] at h
        simp only [Bool.and_eq_true] at hc
        obtain ⟨ht, hp⟩ := hc
        cases hdt : d.turnover with
        | none => rw [hdt] at ht; cases ht
        | some t =>
          cases hdp : d.profitLoss with
          | none => rw [hdp] at hp; cases hp
          | some p =>
            refine ⟨t, p, rfl, rfl, ?_, ?_, ?_⟩
            · rw [hdt] at ht
              simpa [ratTruthy] using ht
            · rw [hdp] at hp
              simpa [ratTruthy] using hp
            · rw [hdt, hdp] at h
              simpa using h.symm
      · rw [if_neg hc] at h
        cases h
    · rintro ⟨t, p, hdt, hdp, ht, hp, rfl⟩
      simp only [hdt, hdp]
      rw [if_pos (by simp [ratTruthy, hdt, hdp, ht, hp])]
      simp
  · show some ((125000 : ℚ) / 1500000 * 100) = some (25 / 3)
    norm_num

/-- Witness for the amended C9: the snapshot for a filing with turnover
3 and profit 2 carries net margin 200/3, as the iff demands. -/
theorem net_margin_iff_present_nonzero_witness :
    (enrichWithNbb ⟨"0417497106".data, 2023, some 3, some 2, none, none⟩).net_margin =
      some (200 / 3) := by
  refine ((net_margin_iff_present_nonzero.1 _ _).2 ⟨3, 2, rfl, rfl, ?_, ?_, ?_⟩)
  · norm_num
  · norm_num
  · norm_num

/-- The fixed locale-specific "no data" phrases of the NBB request
handler. -/
def noDataIndicators : List String :=
  ["geen jaarrekeningen", "no annual accounts", "aucun compte annuel",
   "not found", "niet gevonden", "geen gegevens"]

/-- Whether the first list is a prefix of the second. -/
def prefixOf : List Char → List Char → Bool
  | [], _ => true
  | _ :: _, [] => false
  | a :: as, b :: bs => a == b && prefixOf as bs

/-- Whether the first list occurs contiguously inside the second
(String.includes). -/
def infixOf (pat : List Char) : List Char → Bool
  | [] => prefixOf pat []
  | b :: bs => prefixOf pat (b :: bs) || infixOf pat bs

/-- The page-text test: the lowercased body text contains one of the
indicators (the indicators are lowercase, so the match is
case-insensitive). -/
def hasNoData (pageText : String) : Bool :=
  noDataIndicators.any (fun ind => infixOf ind.data (Joiner.jsToLowerS pageText).data)

inductive NbbOutcome where
  | noData | extractionFailed | success
deriving DecidableEq

/-- A record pushed to the debug dataset. -/
structure DatasetRecord where
  vatNumber : List Char
  status : String
deriving DecidableEq

/-- What one handler invocation produced: its terminal outcome, the debug
dataset pushes, the snapshots written through the enrichment writer
(enrichWithNbb also stamps the per-source timestamp, so an empty write
list means no snapshot and no timestamp), and whether extraction ran. -/
structure HandlerResult where
  outcome : NbbOutcome
  datasetPushes : List DatasetRecord
  dbWrites : List FinancialSummary
  extractionAttempted : Bool
deriving DecidableEq

/-- The NBB requestHandler: check the "no data" phrases first; otherwise
run extraction and either record the failure or write the snapshot.  A
normal return is a terminal outcome; transient failures are raised and
handled by the retry machinery outside this function. -/
def nbbRequestHandler (vat : List Char) (pageText : String)
    (extractResult : Option NbbFinancialData) : HandlerResult :=
  if hasNoData pageText then
    { outcome := .noData
      datasetPushes := [⟨vat, "no_data"⟩]
      dbWrites := []
      extractionAttempted := false }
  else
    match extractResult with
    | none =>
      { outcome := .extractionFailed
        datasetPushes := [⟨vat, "extraction_failed"⟩]
        dbWrites := []
        extractionAttempted := true }
    | some d =>
      { outcome := .success
        datasetPushes := [⟨vat, "success"⟩]
        dbWrites := [enrichWithNbb d]
        extractionAttempted := true }

/-- C7: when the fetched page text contains one of the fixed "no data"
phrases (matched case-insensitively), the task ends in the NoData outcome:
extraction is not attempted, the enrichment writer is not invoked — so no
financial snapshot and no per-source timestamp are written — and the
handler returns normally (terminal, not an error). -/
theorem nodata_page_is_terminal (vat : List Char) (pageText : String)
    (extractResult : Option NbbFinancialData)
    (h : hasNoData pageText = true) :
    (nbbRequestHandler vat pageText extractResult).outcome = .noData ∧
    (nbbRequestHandler vat pageText extractResult).extractionAttempted = false ∧
    (nbbRequestHandler vat pageText extractResult).dbWrites = [] ∧
    (nbbRequestHandler vat pageText extractResult).datasetPushes =
      [⟨vat, "no_data"⟩] := by
  unfold nbbRequestHandler
  rw [if_pos h]
  exact ⟨rfl, rfl, rfl, rfl⟩

/-- Witness for C7 at a mixed-case page text containing the Dutch phrase,
with an extraction oracle that would have produced data. -/
theorem nodata_page_is_terminal_witness :
    (nbbRequestHandler ("0417497106".data)
      "Helaas: GEEN Jaarrekeningen gevonden voor deze onderneming"
      (some ⟨"0417497106".data, 2023, some 1, some 1, none, none⟩)).dbWrites =
        [] ∧
    (nbbRequestHandler ("0417497106".data)
      "Helaas: GEEN Jaarrekeningen gevonden voor deze onderneming"
      (some ⟨"0417497106".data, 2023, some 1, some 1, none, none⟩)).outcome =
        .noData := by
  have h := nodata_page_is_terminal ("0417497106".data)
    "Helaas: GEEN Jaarrekeningen gevonden voor deze onderneming"
    (some ⟨"0417497106".data, 2023, some 1, some 1, none, none⟩) (by decide)
  exact ⟨h.2.2.1, h.1⟩

end Nbb

end Firmacheck
